import Mathlib

/-!
Verification of the `async-shared-mutex` admission engine (`src/core/SharedMutex.ts`),
the lock handle (`LockHandle`), the task runner (`src/core/AsyncSharedMutex.ts`) and
the draft variant of the engine kept in the tree.

The TypeScript code is a single-threaded, promise-chained read/write mutex.  We embed
it shallowly as a deterministic state machine over traces of public calls:

* a *signal* (`Sig`) stands for an `UnlockPromise`: `Sig.resolved` is the initial
  `Promise.resolve()` exclusive tail, `Sig.rel i` is the `unlockPromise` of the `i`-th
  reservation (it resolves exactly when that handle's release action fires), and
  `Sig.allOf ids` is `Promise.all` over the `unlockPromise`s of the listed
  reservations (the folded shared cohort);
* time is the position in the trace of calls; the ghost field `relAt` records the
  position at which a handle's release action fired;
* the resolution time of a signal, given the release times, is computed by `sigTime`;
  the resolution time of a pending request's grant promise (`lockPromise`) is the
  resolution time of the exclusive tail it was chained on, but never earlier than the
  position of the issuing call (`grantTime`), because the `.then` callback that
  resolves the grant is only registered at that call.
-/

namespace SMutex

/-- Requested mode of a reservation: exclusive (`lock` / `tryLock`) or shared
(`lockShared` / `tryLockShared`). -/
inductive Mode where
  | exclusive
  | shared
deriving DecidableEq, Repr

/-- Completion signals of the engine.  `resolved` is `Promise.resolve()`, `rel i` is
the `unlockPromise` of reservation `i`, and `allOf ids` is
`Promise.all(...)` over the `unlockPromise`s of the reservations listed in `ids`
(the shared cohort folded by `lock()`). -/
inductive Sig where
  | resolved
  | rel (i : Nat)
  | allOf (ids : List Nat)
deriving DecidableEq, Repr

/-- One reservation created by `createAcquiredLock` / `createPendingLock`.

`gate` is the exclusive tail the grant (`lockPromise`) was chained on at call time
(`Sig.resolved` for the `try*` methods, whose handle is returned synchronously);
`pending` is true for `lock()` / `lockShared()` requests (grant delivered through a
promise) and false for successful `tryLock()` / `tryLockShared()` calls;
`callPos` is the trace position of the issuing call;
`unlockFn` mirrors `LockHandle.unlockFn !== null` (the handle still owns its release
action); `relAt` is the ghost release position (the instant `resolveUnlock()` ran). -/
structure Request where
  mode : Mode
  gate : Sig
  pending : Bool
  callPos : Nat
  unlockFn : Bool
  relAt : Option Nat
deriving DecidableEq, Repr

/-- The state of a `SharedMutex` instance, together with the ghost list of all
reservations created so far (reservation `i` is `reqs[i]`). -/
structure MutexState where
  exclusiveTail : Sig
  sharedGroup : List Nat
  lockCount : Int
  reqs : List Request
deriving DecidableEq, Repr

/-- Initial state: `exclusiveTail = Promise.resolve()`, `sharedGroup = []`,
`lockCount = 0`. -/
def initState : MutexState := ⟨.resolved, [], 0, []⟩

/-- `createAcquiredLock` at trace position `n`: increments `lockCount` and creates a
fresh reservation (its id is returned) whose handle owns its release action. -/
def createAcquiredLock (n : Nat) (mode : Mode) (gate : Sig) (pending : Bool)
    (s : MutexState) : Nat × MutexState :=
  (s.reqs.length,
    { s with lockCount := s.lockCount + 1
             reqs := s.reqs ++ [⟨mode, gate, pending, n, true, none⟩] })

/-- `lock()` at position `n`.  If the shared cohort is non-empty the exclusive tail is
first replaced by `Promise.all(sharedGroup)` and the cohort cleared; the grant is
chained on the (possibly folded) tail, and the new reservation's `unlockPromise`
becomes the exclusive tail.  Returns the id of the request (its `lockPromise`). -/
def lockM (n : Nat) (s : MutexState) : Nat × MutexState :=
  let s1 : MutexState :=
    if s.sharedGroup.isEmpty then s
    else { s with exclusiveTail := .allOf s.sharedGroup, sharedGroup := [] }
  let (id, s2) := createAcquiredLock n .exclusive s1.exclusiveTail true s1
  (id, { s2 with exclusiveTail := .rel id })

/-- `tryLock()` at position `n`: fails (returns `none`, the `null` sentinel) when
`lockCount > 0`, otherwise acquires immediately and installs the new
`unlockPromise` as the exclusive tail. -/
def tryLockM (n : Nat) (s : MutexState) : Option Nat × MutexState :=
  if 0 < s.lockCount then (none, s)
  else
    let (id, s2) := createAcquiredLock n .exclusive .resolved false s
    (some id, { s2 with exclusiveTail := .rel id })

/-- `lockShared()` at position `n`: the grant is chained on the current exclusive
tail and the new `unlockPromise` is appended to the shared cohort. -/
def lockSharedM (n : Nat) (s : MutexState) : Nat × MutexState :=
  let (id, s2) := createAcquiredLock n .shared s.exclusiveTail true s
  (id, { s2 with sharedGroup := s2.sharedGroup ++ [id] })

/-- `tryLockShared()` at position `n`: fails when `lockCount > sharedGroup.length`,
otherwise acquires immediately and appends the new `unlockPromise` to the cohort. -/
def tryLockSharedM (n : Nat) (s : MutexState) : Option Nat × MutexState :=
  if (s.sharedGroup.length : Int) < s.lockCount then (none, s)
  else
    let (id, s2) := createAcquiredLock n .shared .resolved false s
    (some id, { s2 with sharedGroup := s2.sharedGroup ++ [id] })

/-- `LockHandle.unlock()` on the handle of reservation `i`, at position `n`.  If the
handle still owns its release action, the action runs (`recordUnlock` decrements
`lockCount` and `resolveUnlock()` resolves `rel i`, recorded as `relAt := n`) and
the action reference is discarded; otherwise it is a no-op. -/
def unlockM (n : Nat) (i : Nat) (s : MutexState) : MutexState :=
  match s.reqs[i]? with
  | none => s
  | some r =>
    if r.unlockFn then
      { s with lockCount := s.lockCount - 1
               reqs := s.reqs.set i { r with unlockFn := false, relAt := some n } }
    else s

/-- A public call on the mutex.  `unlock i` invokes `unlock()` on the handle of
reservation `i` (a no-op when no such reservation exists yet). -/
inductive Op where
  | lock
  | tryLock
  | lockShared
  | tryLockShared
  | unlock (i : Nat)
deriving DecidableEq, Repr

/-- One call, at trace position `n`. -/
def step (n : Nat) (s : MutexState) : Op → MutexState
  | .lock => (lockM n s).2
  | .tryLock => (tryLockM n s).2
  | .lockShared => (lockSharedM n s).2
  | .tryLockShared => (tryLockSharedM n s).2
  | .unlock i => unlockM n i s

/-- Run a list of calls starting at position `n`. -/
def runFrom (n : Nat) (s : MutexState) : List Op → MutexState
  | [] => s
  | op :: ops => runFrom (n + 1) (step n s op) ops

/-- Run a full trace from the initial state. -/
def run (tr : List Op) : MutexState := runFrom 0 initState tr

/-- The state after the first `n` calls of the trace. -/
def stateAt (tr : List Op) (n : Nat) : MutexState := runFrom 0 initState (tr.take n)

/-- Release times extracted from a full run: `relTimes tr i` is the position at which
reservation `i`'s release action fired (`none` when it never fires). -/
def relTimes (tr : List Op) (i : Nat) : Option Nat :=
  match (run tr).reqs[i]? with
  | some r => r.relAt
  | none => none

/-- Order on optional instants, `none` meaning "never" (the top element):
`oLe x y` says instant `x` is at or before instant `y`. -/
def oLe (x y : Option Nat) : Prop := ∀ b, y = some b → ∃ a, x = some a ∧ a ≤ b

/-- Latest of two optional instants (`Promise.all` of two signals): `none` if either
never happens. -/
def oMax : Option Nat → Option Nat → Option Nat
  | some a, some b => some (max a b)
  | _, _ => none

/-- Resolution time of `Promise.all` over the `unlockPromise`s of `ids`, given the
release times `f`. -/
def listMax (f : Nat → Option Nat) (ids : List Nat) : Option Nat :=
  ids.foldr (fun i acc => oMax (f i) acc) (some 0)

/-- Resolution time of a signal, given the release times `f`. -/
def sigTime (f : Nat → Option Nat) : Sig → Option Nat
  | .resolved => some 0
  | .rel i => f i
  | .allOf ids => listMax f ids

/-- Resolution time of a request's grant.  For a pending request the grant promise is
resolved by the `.then` callback registered on the gate at the issuing call, so it
resolves when the gate does, but not before the call itself; for a `try*` request the
handle is returned synchronously at the call. -/
def grantTime (f : Nat → Option Nat) (r : Request) : Option Nat :=
  if r.pending then oMax (some r.callPos) (sigTime f r.gate) else some r.callPos

/-- A reservation's release is causally sound when its release action fires strictly
after its grant resolved: a caller can only release a handle it has received. -/
def reqCausal (f : Nat → Option Nat) (r : Request) : Bool :=
  match r.relAt with
  | none => true
  | some t =>
    match grantTime f r with
    | some g => decide (g < t)
    | none => false

/-- A trace is causal when every released reservation was released strictly after its
grant resolved.  Traces produced by actual clients are always causal: the handle is
only reachable through the grant promise. -/
def causalB (tr : List Op) : Bool :=
  (run tr).reqs.all (reqCausal (relTimes tr))

theorem oLe_refl (x : Option Nat) : oLe x x := by
  intro b hb; exact ⟨b, hb, le_rfl⟩

theorem oLe_trans {x y z : Option Nat} (h1 : oLe x y) (h2 : oLe y z) : oLe x z := by
  intro c hc
  obtain ⟨b, hb, hbc⟩ := h2 c hc
  obtain ⟨a, ha, hab⟩ := h1 b hb
  exact ⟨a, ha, le_trans hab hbc⟩

theorem oLe_none (x : Option Nat) : oLe x none := by
  intro b hb; cases hb

theorem oLe_some_some {a b : Nat} (h : a ≤ b) : oLe (some a) (some b) := by
  intro c hc; cases hc; exact ⟨a, rfl, h⟩

theorem oLe_oMax_left (x y : Option Nat) : oLe x (oMax x y) := by
  intro b hb
  cases x with
  | none => cases y <;> simp [oMax] at hb
  | some a =>
    cases y with
    | none => simp [oMax] at hb
    | some c =>
      simp only [oMax] at hb
      cases hb
      exact ⟨a, rfl, le_max_left _ _⟩

theorem oLe_oMax_right (x y : Option Nat) : oLe y (oMax x y) := by
  intro b hb
  cases x with
  | none => cases y <;> simp [oMax] at hb
  | some a =>
    cases y with
    | none => simp [oMax] at hb
    | some c =>
      simp only [oMax] at hb
      cases hb
      exact ⟨c, rfl, le_max_right _ _⟩

theorem oLe_trans_oMax_left {z x : Option Nat} (y : Option Nat) (h : oLe z x) :
    oLe z (oMax x y) :=
  oLe_trans h (oLe_oMax_left x y)

theorem oLe_trans_oMax_right {z y : Option Nat} (x : Option Nat) (h : oLe z y) :
    oLe z (oMax x y) :=
  oLe_trans h (oLe_oMax_right x y)

/-- A member of the folded cohort bounds the `Promise.all` resolution time from
below: the combined signal resolves no earlier than each member. -/
theorem oLe_listMax_of_mem {f : Nat → Option Nat} {ids : List Nat} {i : Nat}
    (h : i ∈ ids) : oLe (f i) (listMax f ids) := by
  induction ids with
  | nil => cases h
  | cons a l ih =>
    simp only [listMax, List.foldr_cons]
    rcases List.mem_cons.mp h with h1 | h2
    · subst h1; exact oLe_oMax_left _ _
    · exact oLe_trans_oMax_right _ (ih h2)

/-- Causality turns a bound on a request's grant into a bound on its release:
whatever happens no later than the grant happens strictly before the release. -/
theorem oLe_relAt_of_oLe_grant {f : Nat → Option Nat} {r : Request} {x : Option Nat}
    (hc : reqCausal f r = true) (h : oLe x (grantTime f r)) : oLe x r.relAt := by
  intro t ht
  rw [reqCausal, ht] at hc
  cases hg : grantTime f r with
  | none => rw [hg] at hc; cases hc
  | some g =>
    rw [hg] at hc
    obtain ⟨a, ha, hag⟩ := h g hg
    exact ⟨a, ha, le_of_lt (lt_of_le_of_lt hag (by exact of_decide_eq_true hc))⟩

theorem runFrom_append (n : Nat) (s : MutexState) (l1 l2 : List Op) :
    runFrom n s (l1 ++ l2) = runFrom (n + l1.length) (runFrom n s l1) l2 := by
  induction l1 generalizing n s with
  | nil => simp [runFrom]
  | cons op ops ih =>
    simp only [List.cons_append, runFrom, List.length_cons]
    show runFrom (n + 1) (step n s op) (ops ++ l2) = _
    rw [ih]
    congr 1
    omega

theorem stateAt_zero (tr : List Op) : stateAt tr 0 = initState := rfl

theorem stateAt_succ (tr : List Op) (n : Nat) (h : n < tr.length) :
    stateAt tr (n + 1) = step n (stateAt tr n) tr[n] := by
  unfold stateAt
  rw [List.take_succ, List.getElem?_eq_getElem h]
  simp only [Option.toList_some]
  rw [runFrom_append]
  simp [runFrom, List.length_take, Nat.min_eq_left (le_of_lt h)]

theorem stateAt_succ_of_ge (tr : List Op) (n : Nat) (h : tr.length ≤ n) :
    stateAt tr (n + 1) = stateAt tr n := by
  unfold stateAt
  rw [List.take_of_length_le h, List.take_of_length_le (le_trans h (Nat.le_succ n))]

theorem run_eq_stateAt (tr : List Op) : run tr = stateAt tr tr.length := by
  unfold run stateAt
  rw [List.take_length tr]

/-- The signal a `lock()` call issued in state `s` chains its grant on: the current
exclusive tail, or the folded cohort when the cohort is non-empty. -/
def lockGate (s : MutexState) : Sig :=
  if s.sharedGroup.isEmpty then s.exclusiveTail else .allOf s.sharedGroup

theorem lockM_eq (n : Nat) (s : MutexState) :
    lockM n s = (s.reqs.length,
      ⟨.rel s.reqs.length, [], s.lockCount + 1,
        s.reqs ++ [⟨.exclusive, lockGate s, true, n, true, none⟩]⟩) := by
  unfold lockM createAcquiredLock lockGate
  cases h : s.sharedGroup.isEmpty with
  | true =>
    have h0 : s.sharedGroup = [] := List.isEmpty_iff.mp h
    simp [h, h0]
  | false => simp [h]

theorem tryLockM_fail (n : Nat) {s : MutexState} (h : 0 < s.lockCount) :
    tryLockM n s = (none, s) := by
  unfold tryLockM
  simp [h]

theorem tryLockM_succ (n : Nat) {s : MutexState} (h : ¬ 0 < s.lockCount) :
    tryLockM n s = (some s.reqs.length,
      ⟨.rel s.reqs.length, s.sharedGroup, s.lockCount + 1,
        s.reqs ++ [⟨.exclusive, .resolved, false, n, true, none⟩]⟩) := by
  unfold tryLockM createAcquiredLock
  simp [h]

theorem lockSharedM_eq (n : Nat) (s : MutexState) :
    lockSharedM n s = (s.reqs.length,
      ⟨s.exclusiveTail, s.sharedGroup ++ [s.reqs.length], s.lockCount + 1,
        s.reqs ++ [⟨.shared, s.exclusiveTail, true, n, true, none⟩]⟩) := by
  unfold lockSharedM createAcquiredLock
  simp

theorem tryLockSharedM_fail (n : Nat) {s : MutexState}
    (h : (s.sharedGroup.length : Int) < s.lockCount) :
    tryLockSharedM n s = (none, s) := by
  unfold tryLockSharedM
  simp [h]

theorem tryLockSharedM_succ (n : Nat) {s : MutexState}
    (h : ¬ (s.sharedGroup.length : Int) < s.lockCount) :
    tryLockSharedM n s = (some s.reqs.length,
      ⟨s.exclusiveTail, s.sharedGroup ++ [s.reqs.length], s.lockCount + 1,
        s.reqs ++ [⟨.shared, .resolved, false, n, true, none⟩]⟩) := by
  unfold tryLockSharedM createAcquiredLock
  simp [h]

theorem unlockM_nothing (n i : Nat) {s : MutexState} (h : s.reqs[i]? = none) :
    unlockM n i s = s := by
  unfold unlockM
  rw [h]

theorem unlockM_released (n i : Nat) {s : MutexState} {r : Request}
    (h : s.reqs[i]? = some r) (hf : r.unlockFn = false) :
    unlockM n i s = s := by
  unfold unlockM
  rw [h]
  simp [hf]

theorem unlockM_fire (n i : Nat) {s : MutexState} {r : Request}
    (h : s.reqs[i]? = some r) (hf : r.unlockFn = true) :
    unlockM n i s =
      { s with lockCount := s.lockCount - 1
               reqs := s.reqs.set i { r with unlockFn := false, relAt := some n } } := by
  unfold unlockM
  rw [h]
  simp [hf]

theorem get_app {α : Type} {l l2 : List α} {i : Nat} {r : α} (h : l[i]? = some r) :
    (l ++ l2)[i]? = some r := by
  have hi : i < l.length := (List.getElem?_eq_some.mp h).1
  rw [List.getElem?_append]
  simp [hi, h]

theorem get_app_len {α : Type} (l : List α) (x : α) : (l ++ [x])[l.length]? = some x := by
  simp

theorem get_some_lt {α : Type} {l : List α} {i : Nat} {r : α} (h : l[i]? = some r) :
    i < l.length :=
  (List.getElem?_eq_some.mp h).1

/-- After one step, an existing reservation is either untouched, or (only on the
first `unlock` of its handle) it fires: the action reference is dropped and the
release instant recorded as the current position. -/
theorem step_reqs_evolve (k : Nat) (s : MutexState) (op : Op) {i : Nat} {r : Request}
    (h : s.reqs[i]? = some r) :
    ∃ r1, (step k s op).reqs[i]? = some r1 ∧
      (r1 = r ∨ (r.unlockFn = true ∧ r1 = { r with unlockFn := false, relAt := some k })) := by
  cases op with
  | lock =>
    refine ⟨r, ?_, Or.inl rfl⟩
    show ((lockM k s).2).reqs[i]? = some r
    rw [lockM_eq]
    exact get_app h
  | tryLock =>
    by_cases hc : 0 < s.lockCount
    · refine ⟨r, ?_, Or.inl rfl⟩
      show ((tryLockM k s).2).reqs[i]? = some r
      rw [tryLockM_fail k hc]
      exact h
    · refine ⟨r, ?_, Or.inl rfl⟩
      show ((tryLockM k s).2).reqs[i]? = some r
      rw [tryLockM_succ k hc]
      exact get_app h
  | lockShared =>
    refine ⟨r, ?_, Or.inl rfl⟩
    show ((lockSharedM k s).2).reqs[i]? = some r
    rw [lockSharedM_eq]
    exact get_app h
  | tryLockShared =>
    by_cases hc : (s.sharedGroup.length : Int) < s.lockCount
    · refine ⟨r, ?_, Or.inl rfl⟩
      show ((tryLockSharedM k s).2).reqs[i]? = some r
      rw [tryLockSharedM_fail k hc]
      exact h
    · refine ⟨r, ?_, Or.inl rfl⟩
      show ((tryLockSharedM k s).2).reqs[i]? = some r
      rw [tryLockSharedM_succ k hc]
      exact get_app h
  | unlock j =>
    show ∃ r1, (unlockM k j s).reqs[i]? = some r1 ∧ _
    cases hj : s.reqs[j]? with
    | none => exact ⟨r, by rw [unlockM_nothing k j hj]; exact h, Or.inl rfl⟩
    | some rj =>
      cases hf : rj.unlockFn with
      | false => exact ⟨r, by rw [unlockM_released k j hj hf]; exact h, Or.inl rfl⟩
      | true =>
        rw [unlockM_fire k j hj hf]
        by_cases hij : i = j
        · subst hij
          have : rj = r := by rw [h] at hj; exact (Option.some.inj hj).symm
          subst this
          refine ⟨{ rj with unlockFn := false, relAt := some k }, ?_, Or.inr ⟨hf, rfl⟩⟩
          exact List.getElem?_set_eq_of_lt _ (get_some_lt h)
        · refine ⟨r, ?_, Or.inl rfl⟩
          show (s.reqs.set j _)[i]? = some r
          rw [List.getElem?_set_ne (by omega)]
          exact h

/-- Step-local length monotonicity. -/
theorem step_length_mono (k : Nat) (s : MutexState) (op : Op) :
    s.reqs.length ≤ (step k s op).reqs.length := by
  cases op with
  | lock => show _ ≤ ((lockM k s).2).reqs.length; rw [lockM_eq]; simp
  | tryLock =>
    by_cases hc : 0 < s.lockCount
    · show _ ≤ ((tryLockM k s).2).reqs.length; rw [tryLockM_fail k hc]
    · show _ ≤ ((tryLockM k s).2).reqs.length; rw [tryLockM_succ k hc]; simp
  | lockShared => show _ ≤ ((lockSharedM k s).2).reqs.length; rw [lockSharedM_eq]; simp
  | tryLockShared =>
    by_cases hc : (s.sharedGroup.length : Int) < s.lockCount
    · show _ ≤ ((tryLockSharedM k s).2).reqs.length; rw [tryLockSharedM_fail k hc]
    · show _ ≤ ((tryLockSharedM k s).2).reqs.length; rw [tryLockSharedM_succ k hc]; simp
  | unlock j =>
    show _ ≤ (unlockM k j s).reqs.length
    cases hj : s.reqs[j]? with
    | none => rw [unlockM_nothing k j hj]
    | some rj =>
      cases hf : rj.unlockFn with
      | false => rw [unlockM_released k j hj hf]
      | true => rw [unlockM_fire k j hj hf]; simp

/-- Relation between a reservation's record now and in any later state: immutable
fields persist, and once the release action has fired nothing changes any more. -/
def ReqLe (r r' : Request) : Prop :=
  r'.mode = r.mode ∧ r'.gate = r.gate ∧ r'.pending = r.pending ∧
    r'.callPos = r.callPos ∧
    (r.unlockFn = false → r'.unlockFn = false ∧ r'.relAt = r.relAt)

theorem ReqLe_refl (r : Request) : ReqLe r r :=
  ⟨rfl, rfl, rfl, rfl, fun h => ⟨h, rfl⟩⟩

theorem ReqLe_trans {r1 r2 r3 : Request} (h1 : ReqLe r1 r2) (h2 : ReqLe r2 r3) :
    ReqLe r1 r3 := by
  obtain ⟨m1, g1, p1, c1, f1⟩ := h1
  obtain ⟨m2, g2, p2, c2, f2⟩ := h2
  refine ⟨m2.trans m1, g2.trans g1, p2.trans p1, c2.trans c1, fun hf => ?_⟩
  obtain ⟨hu1, hr1⟩ := f1 hf
  obtain ⟨hu2, hr2⟩ := f2 hu1
  exact ⟨hu2, hr2.trans hr1⟩

theorem step_ReqLe (k : Nat) (s : MutexState) (op : Op) {i : Nat} {r : Request}
    (h : s.reqs[i]? = some r) :
    ∃ r1, (step k s op).reqs[i]? = some r1 ∧ ReqLe r r1 := by
  obtain ⟨r1, h1, hcase⟩ := step_reqs_evolve k s op h
  refine ⟨r1, h1, ?_⟩
  rcases hcase with rfl | ⟨hu, rfl⟩
  · exact ReqLe_refl _
  · refine ⟨rfl, rfl, rfl, rfl, fun hf => ?_⟩
    rw [hu] at hf
    cases hf

theorem runFrom_ReqLe (ops : List Op) :
    ∀ (k : Nat) (s : MutexState) {i : Nat} {r : Request}, s.reqs[i]? = some r →
      ∃ r', (runFrom k s ops).reqs[i]? = some r' ∧ ReqLe r r' := by
  induction ops with
  | nil =>
    intro k s i r h
    exact ⟨r, h, ReqLe_refl r⟩
  | cons op ops ih =>
    intro k s i r h
    obtain ⟨r1, h1, hle⟩ := step_ReqLe k s op h
    obtain ⟨r', h', hle'⟩ := ih (k + 1) (step k s op) h1
    exact ⟨r', h', ReqLe_trans hle hle'⟩

theorem runFrom_length_mono (ops : List Op) (k : Nat) (s : MutexState) :
    s.reqs.length ≤ (runFrom k s ops).reqs.length := by
  induction ops generalizing k s with
  | nil => exact le_rfl
  | cons op ops ih => exact le_trans (step_length_mono k s op) (ih (k + 1) (step k s op))

theorem run_drop (tr : List Op) (n : Nat) :
    run tr = runFrom (min n tr.length) (stateAt tr n) (tr.drop n) := by
  unfold run stateAt
  have := runFrom_append 0 initState (tr.take n) (tr.drop n)
  rw [List.take_append_drop] at this
  rw [this, List.length_take]
  simp

/-- A reservation present in some prefix state persists into the full run with its
immutable fields intact. -/
theorem stateAt_ReqLe (tr : List Op) (n : Nat) {i : Nat} {r : Request}
    (h : (stateAt tr n).reqs[i]? = some r) :
    ∃ r', (run tr).reqs[i]? = some r' ∧ ReqLe r r' := by
  rw [run_drop tr n]
  exact runFrom_ReqLe _ _ _ h

theorem get_app_cases {α : Type} {l : List α} {x : α} {i : Nat} {r : α}
    (h : (l ++ [x])[i]? = some r) : l[i]? = some r ∨ (i = l.length ∧ r = x) := by
  by_cases hlt : i < l.length
  · left
    rw [List.getElem?_append] at h
    simpa [hlt] using h
  · right
    have hi : i < l.length + 1 := by simpa using get_some_lt h
    have hi2 : i = l.length := by omega
    subst hi2
    rw [get_app_len] at h
    exact ⟨rfl, (Option.some.inj h).symm⟩

theorem get_set_cases {α : Type} {l : List α} {y : α} {i b : Nat} {r : α}
    (h : (l.set i y)[b]? = some r) :
    (b = i ∧ i < l.length ∧ r = y) ∨ (b ≠ i ∧ l[b]? = some r) := by
  by_cases hbi : b = i
  · subst hbi
    have hb : b < l.length := by simpa using get_some_lt h
    rw [List.getElem?_set_eq_of_lt y hb] at h
    exact Or.inl ⟨rfl, hb, (Option.some.inj h).symm⟩
  · rw [List.getElem?_set_ne (fun he => hbi he.symm)] at h
    exact Or.inr ⟨hbi, h⟩

theorem countP_set_of_true {p : Request → Bool} :
    ∀ (l : List Request) (i : Nat) (r' : Request) {r : Request}, l[i]? = some r →
      p r = true → p r' = false → l.countP p = (l.set i r').countP p + 1 := by
  intro l
  induction l with
  | nil =>
    intro i r' r h
    cases h
  | cons a l ih =>
    intro i r' r h hr hr'
    cases i with
    | zero =>
      simp only [List.getElem?_cons_zero] at h
      cases Option.some.inj h
      simp [List.set, List.countP_cons, hr, hr']
    | succ i =>
      simp only [List.getElem?_cons_succ] at h
      have := ih i r' h hr hr'
      simp only [List.set, List.countP_cons, this]
      omega

theorem countP_pos_of_mem {p : Request → Bool} {l : List Request} {i : Nat} {r : Request}
    (h : l[i]? = some r) (hr : p r = true) : 1 ≤ l.countP p := by
  have hm : r ∈ l := List.getElem?_mem h
  exact List.countP_pos_iff.mpr ⟨r, hm, hr⟩

theorem step_lock (n : Nat) (s : MutexState) :
    step n s .lock = ⟨.rel s.reqs.length, [], s.lockCount + 1,
      s.reqs ++ [⟨.exclusive, lockGate s, true, n, true, none⟩]⟩ := by
  show (lockM n s).2 = _
  rw [lockM_eq]

theorem step_tryLock_fail {n : Nat} {s : MutexState} (h : 0 < s.lockCount) :
    step n s .tryLock = s := by
  show (tryLockM n s).2 = _
  rw [tryLockM_fail n h]

theorem step_tryLock_succ {n : Nat} {s : MutexState} (h : ¬ 0 < s.lockCount) :
    step n s .tryLock = ⟨.rel s.reqs.length, s.sharedGroup, s.lockCount + 1,
      s.reqs ++ [⟨.exclusive, .resolved, false, n, true, none⟩]⟩ := by
  show (tryLockM n s).2 = _
  rw [tryLockM_succ n h]

theorem step_lockShared (n : Nat) (s : MutexState) :
    step n s .lockShared = ⟨s.exclusiveTail, s.sharedGroup ++ [s.reqs.length],
      s.lockCount + 1, s.reqs ++ [⟨.shared, s.exclusiveTail, true, n, true, none⟩]⟩ := by
  show (lockSharedM n s).2 = _
  rw [lockSharedM_eq]

theorem step_tryLockShared_fail {n : Nat} {s : MutexState}
    (h : (s.sharedGroup.length : Int) < s.lockCount) :
    step n s .tryLockShared = s := by
  show (tryLockSharedM n s).2 = _
  rw [tryLockSharedM_fail n h]

theorem step_tryLockShared_succ {n : Nat} {s : MutexState}
    (h : ¬ (s.sharedGroup.length : Int) < s.lockCount) :
    step n s .tryLockShared = ⟨s.exclusiveTail, s.sharedGroup ++ [s.reqs.length],
      s.lockCount + 1, s.reqs ++ [⟨.shared, .resolved, false, n, true, none⟩]⟩ := by
  show (tryLockSharedM n s).2 = _
  rw [tryLockSharedM_succ n h]

theorem step_unlock_nothing {n i : Nat} {s : MutexState} (h : s.reqs[i]? = none) :
    step n s (.unlock i) = s :=
  unlockM_nothing n i h

theorem step_unlock_released {n i : Nat} {s : MutexState} {r : Request}
    (h : s.reqs[i]? = some r) (hf : r.unlockFn = false) :
    step n s (.unlock i) = s :=
  unlockM_released n i h hf

theorem step_unlock_fire {n i : Nat} {s : MutexState} {r : Request}
    (h : s.reqs[i]? = some r) (hf : r.unlockFn = true) :
    step n s (.unlock i) =
      { s with lockCount := s.lockCount - 1
               reqs := s.reqs.set i { r with unlockFn := false, relAt := some n } } :=
  unlockM_fire n i h hf

/-- Release actions fire at the current position or later: if a reservation is
unreleased in state `s` and has fired by the end of `runFrom k s ops`, the recorded
instant is at least `k`. -/
theorem relAt_lower (ops : List Op) (k : Nat) (s : MutexState) {i : Nat} {r r' : Request}
    (h : s.reqs[i]? = some r) (hr : r.relAt = none)
    (h' : (runFrom k s ops).reqs[i]? = some r') {t : Nat} (ht : r'.relAt = some t) :
    k ≤ t := by
  induction ops generalizing k s r with
  | nil =>
    simp only [runFrom] at h'
    rw [h] at h'
    cases Option.some.inj h'
    rw [hr] at ht
    cases ht
  | cons op ops ih =>
    simp only [runFrom] at h'
    obtain ⟨r1, h1, hcase⟩ := step_reqs_evolve k s op h
    rcases hcase with rfl | ⟨hu, hfired⟩
    · exact le_trans (Nat.le_succ k) (ih (k + 1) (step k s op) h1 hr h')
    · subst hfired
      obtain ⟨r2, h2, hle⟩ := runFrom_ReqLe ops (k + 1) (step k s op) h1
      rw [h'] at h2
      cases Option.some.inj h2
      obtain ⟨_, hrel⟩ := hle.2.2.2.2 rfl
      rw [hrel] at ht
      cases Option.some.inj ht
      exact le_rfl

/-- Bookkeeping invariants of the reservation records after `n` calls. -/
structure ReqsWF (n : Nat) (reqs : List Request) : Prop where
  flag_iff : ∀ (i : Nat) (r : Request), reqs[i]? = some r →
    (r.unlockFn = true ↔ r.relAt = none)
  callPos_lt : ∀ (i : Nat) (r : Request), reqs[i]? = some r → r.callPos < n
  rel_bounds : ∀ (i : Nat) (r : Request) (t : Nat), reqs[i]? = some r →
    r.relAt = some t → r.callPos < t ∧ t < n
  callPos_mono : ∀ (i j : Nat) (ri rj : Request), i < j → reqs[i]? = some ri →
    reqs[j]? = some rj → ri.callPos < rj.callPos

theorem ReqsWF.monoReqs {n m : Nat} {reqs : List Request} (h : ReqsWF n reqs) (hnm : n ≤ m) :
    ReqsWF m reqs := by
  refine ⟨h.flag_iff, ?_, ?_, h.callPos_mono⟩
  · intro i r hr
    exact lt_of_lt_of_le (h.callPos_lt i r hr) hnm
  · intro i r t hr hrel
    have := h.rel_bounds i r t hr hrel
    omega

theorem ReqsWF.append {n : Nat} {reqs : List Request} (h : ReqsWF n reqs)
    (mo : Mode) (g : Sig) (p : Bool) :
    ReqsWF (n + 1) (reqs ++ [⟨mo, g, p, n, true, none⟩]) := by
  refine ⟨?_, ?_, ?_, ?_⟩
  · intro i r hr
    rcases get_app_cases hr with h' | ⟨_, rfl⟩
    · exact h.flag_iff i r h'
    · simp
  · intro i r hr
    rcases get_app_cases hr with h' | ⟨_, rfl⟩
    · exact lt_trans (h.callPos_lt i r h') (Nat.lt_succ_self n)
    · exact Nat.lt_succ_self n
  · intro i r t hr hrel
    rcases get_app_cases hr with h' | ⟨_, rfl⟩
    · have := h.rel_bounds i r t h' hrel
      omega
    · cases hrel
  · intro i j ri rj hij hi hj
    rcases get_app_cases hj with hj' | ⟨hjlen, rfl⟩
    · rcases get_app_cases hi with hi' | ⟨hilen, rfl⟩
      · exact h.callPos_mono i j ri rj hij hi' hj'
      · have := get_some_lt hj'
        omega
    · rcases get_app_cases hi with hi' | ⟨hilen, rfl⟩
      · exact h.callPos_lt i ri hi'
      · omega

theorem ReqsWF.fire {n : Nat} {reqs : List Request} (h : ReqsWF n reqs) {i : Nat}
    {r : Request} (hi : reqs[i]? = some r) :
    ReqsWF (n + 1) (reqs.set i { r with unlockFn := false, relAt := some n }) := by
  have hcp : r.callPos < n := h.callPos_lt i r hi
  refine ⟨?_, ?_, ?_, ?_⟩
  · intro b rb hb
    rcases get_set_cases hb with ⟨rfl, _, rfl⟩ | ⟨_, hb'⟩
    · simp
    · exact h.flag_iff b rb hb'
  · intro b rb hb
    rcases get_set_cases hb with ⟨rfl, _, rfl⟩ | ⟨_, hb'⟩
    · exact lt_trans hcp (Nat.lt_succ_self n)
    · exact lt_trans (h.callPos_lt b rb hb') (Nat.lt_succ_self n)
  · intro b rb t hb hrel
    rcases get_set_cases hb with ⟨rfl, _, rfl⟩ | ⟨_, hb'⟩
    · have hx : ({ r with unlockFn := false, relAt := some n } : Request).relAt
          = some n := rfl
      rw [hx] at hrel
      cases Option.some.inj hrel
      exact ⟨hcp, Nat.lt_succ_self n⟩
    · have := h.rel_bounds b rb t hb' hrel
      omega
  · intro b c rb rc hbc hb hc
    rcases get_set_cases hb with ⟨rfl, _, rfl⟩ | ⟨_, hb'⟩ <;>
      rcases get_set_cases hc with ⟨he, _, rfl⟩ | ⟨_, hc'⟩
    · omega
    · exact h.callPos_mono _ c r rc hbc hi hc'
    · subst he
      exact h.callPos_mono b _ rb r hbc hb' hi
    · exact h.callPos_mono b c rb rc hbc hb' hc'

/-- Structural invariants of every reachable mutex state: cohort members are shared
reservations and appear once each, the exclusive tail is the initial resolved signal
or the release signal of an exclusive reservation, `lockCount` counts the
reservations whose release action has not yet fired, and the release action fires
exactly when the ghost release instant is recorded. -/
structure WF (n : Nat) (s : MutexState) : Prop where
  reqsWF : ReqsWF n s.reqs
  grp_mem : ∀ m ∈ s.sharedGroup, ∃ r : Request, s.reqs[m]? = some r ∧ r.mode = .shared
  grp_nodup : s.sharedGroup.Nodup
  tail_ok : s.exclusiveTail = .resolved ∨
    ∃ (e : Nat) (r : Request), s.reqs[e]? = some r ∧ r.mode = .exclusive ∧
      s.exclusiveTail = .rel e
  count_eq : s.lockCount = (s.reqs.countP (fun r => r.unlockFn) : Int)

theorem WF.monoWF {n m : Nat} {s : MutexState} (hw : WF n s) (h : n ≤ m) : WF m s :=
  ⟨hw.reqsWF.monoReqs h, hw.grp_mem, hw.grp_nodup, hw.tail_ok, hw.count_eq⟩

theorem wf_init : WF 0 initState := by
  refine ⟨⟨?_, ?_, ?_, ?_⟩, ?_, List.nodup_nil, Or.inl rfl, rfl⟩ <;>
    · intro i
      intros
      simp_all [initState]

theorem wf_step {n : Nat} {s : MutexState} (hw : WF n s) (op : Op) :
    WF (n + 1) (step n s op) := by
  cases op with
  | lock =>
    rw [step_lock]
    refine ⟨hw.reqsWF.append _ _ _, ?_, List.nodup_nil, ?_, ?_⟩
    · intro m hm
      cases hm
    · exact Or.inr ⟨s.reqs.length, _, get_app_len _ _, rfl, rfl⟩
    · show s.lockCount + 1 = _
      rw [List.countP_append]
      have hc := hw.count_eq
      simp only [List.countP_cons, List.countP_nil]
      push_cast
      simp only at hc ⊢
      omega
  | tryLock =>
    by_cases hc : 0 < s.lockCount
    · rw [step_tryLock_fail hc]
      exact hw.monoWF (Nat.le_succ n)
    · rw [step_tryLock_succ hc]
      refine ⟨hw.reqsWF.append _ _ _, ?_, hw.grp_nodup, ?_, ?_⟩
      · intro m hm
        obtain ⟨r, hr, hmode⟩ := hw.grp_mem m hm
        exact ⟨r, get_app hr, hmode⟩
      · exact Or.inr ⟨s.reqs.length, _, get_app_len _ _, rfl, rfl⟩
      · show s.lockCount + 1 = _
        rw [List.countP_append]
        have hcnt := hw.count_eq
        simp only [List.countP_cons, List.countP_nil]
        push_cast
        simp only at hcnt ⊢
        omega
  | lockShared =>
    rw [step_lockShared]
    refine ⟨hw.reqsWF.append _ _ _, ?_, ?_, ?_, ?_⟩
    · intro m hm
      rcases List.mem_append.mp hm with hold | hnew
      · obtain ⟨r, hr, hmode⟩ := hw.grp_mem m hold
        exact ⟨r, get_app hr, hmode⟩
      · cases List.mem_singleton.mp hnew
        exact ⟨_, get_app_len _ _, rfl⟩
    · have hnot : s.reqs.length ∉ s.sharedGroup := by
        intro hmem
        obtain ⟨r, hr, _⟩ := hw.grp_mem _ hmem
        exact absurd (get_some_lt hr) (lt_irrefl _)
      simp [List.nodup_append, hw.grp_nodup, hnot]
    · rcases hw.tail_ok with htail | ⟨e, r, hr, hmode, htail⟩
      · exact Or.inl htail
      · exact Or.inr ⟨e, r, get_app hr, hmode, htail⟩
    · show s.lockCount + 1 = _
      rw [List.countP_append]
      have hcnt := hw.count_eq
      simp only [List.countP_cons, List.countP_nil]
      push_cast
      simp only at hcnt ⊢
      omega
  | tryLockShared =>
    by_cases hc : (s.sharedGroup.length : Int) < s.lockCount
    · rw [step_tryLockShared_fail hc]
      exact hw.monoWF (Nat.le_succ n)
    · rw [step_tryLockShared_succ hc]
      refine ⟨hw.reqsWF.append _ _ _, ?_, ?_, ?_, ?_⟩
      · intro m hm
        rcases List.mem_append.mp hm with hold | hnew
        · obtain ⟨r, hr, hmode⟩ := hw.grp_mem m hold
          exact ⟨r, get_app hr, hmode⟩
        · cases List.mem_singleton.mp hnew
          exact ⟨_, get_app_len _ _, rfl⟩
      · have hnot : s.reqs.length ∉ s.sharedGroup := by
          intro hmem
          obtain ⟨r, hr, _⟩ := hw.grp_mem _ hmem
          exact absurd (get_some_lt hr) (lt_irrefl _)
        simp [List.nodup_append, hw.grp_nodup, hnot]
      · rcases hw.tail_ok with htail | ⟨e, r, hr, hmode, htail⟩
        · exact Or.inl htail
        · exact Or.inr ⟨e, r, get_app hr, hmode, htail⟩
      · show s.lockCount + 1 = _
        rw [List.countP_append]
        have hcnt := hw.count_eq
        simp only [List.countP_cons, List.countP_nil]
        push_cast
        simp only at hcnt ⊢
        omega
  | unlock i =>
    cases hj : s.reqs[i]? with
    | none =>
      rw [step_unlock_nothing hj]
      exact hw.monoWF (Nat.le_succ n)
    | some r =>
      cases hf : r.unlockFn with
      | false =>
        rw [step_unlock_released hj hf]
        exact hw.monoWF (Nat.le_succ n)
      | true =>
        rw [step_unlock_fire hj hf]
        refine ⟨hw.reqsWF.fire hj, ?_, hw.grp_nodup, ?_, ?_⟩
        · intro m hm
          obtain ⟨rm, hrm, hmode⟩ := hw.grp_mem m hm
          by_cases hmi : m = i
          · subst hmi
            rw [hj] at hrm
            cases Option.some.inj hrm
            refine ⟨_, List.getElem?_set_eq_of_lt _ (get_some_lt hj), ?_⟩
            simpa using hmode
          · exact ⟨rm, by rw [List.getElem?_set_ne (fun he => hmi he.symm)]; exact hrm, hmode⟩
        · rcases hw.tail_ok with htail | ⟨e, re, hre, hmode, htail⟩
          · exact Or.inl htail
          · by_cases hei : e = i
            · subst hei
              rw [hj] at hre
              cases Option.some.inj hre
              refine Or.inr ⟨e, _, List.getElem?_set_eq_of_lt _ (get_some_lt hj), ?_, htail⟩
              simpa using hmode
            · exact Or.inr ⟨e, re,
                by rw [List.getElem?_set_ne (fun he => hei he.symm)]; exact hre, hmode, htail⟩
        · have hcnt := hw.count_eq
          have hset := countP_set_of_true (p := fun r => r.unlockFn) s.reqs i
            { r with unlockFn := false, relAt := some n } hj hf (by simp)
          show s.lockCount - 1 = _
          rw [hcnt, hset]
          push_cast
          ring

theorem wf_stateAt (tr : List Op) (n : Nat) : WF n (stateAt tr n) := by
  induction n with
  | zero =>
    rw [stateAt_zero]
    exact wf_init
  | succ n ih =>
    by_cases h : n < tr.length
    · rw [stateAt_succ tr n h]
      exact wf_step ih _
    · rw [stateAt_succ_of_ge tr n (le_of_not_lt h)]
      exact ih.monoWF (Nat.le_succ n)

theorem wf_run (tr : List Op) : WF tr.length (run tr) := by
  rw [run_eq_stateAt]
  exact wf_stateAt tr tr.length

theorem relTimes_eq {tr : List Op} {i : Nat} {r : Request}
    (h : (run tr).reqs[i]? = some r) : relTimes tr i = r.relAt := by
  unfold relTimes
  rw [h]

theorem causal_spec {tr : List Op} (hc : causalB tr = true) {i : Nat} {r : Request}
    (h : (run tr).reqs[i]? = some r) : reqCausal (relTimes tr) r = true :=
  List.all_eq_true.mp hc r (List.getElem?_mem h)

/-- Under causality, a bound by a request's grant yields a bound by its release. -/
theorem causal_oLe {tr : List Op} (hc : causalB tr = true) {j : Nat} {rj : Request}
    (h : (run tr).reqs[j]? = some rj) {x : Option Nat}
    (hx : oLe x (grantTime (relTimes tr) rj)) : oLe x (relTimes tr j) := by
  rw [relTimes_eq h]
  exact oLe_relAt_of_oLe_grant (causal_spec hc h) hx

/-- A release already recorded in a prefix state is the release recorded by the
full run. -/
theorem relTimes_of_prefix_released {tr : List Op} {n i : Nat} {r : Request} {t : Nat}
    (h : (stateAt tr n).reqs[i]? = some r) (ht : r.relAt = some t) :
    relTimes tr i = some t := by
  have hw := wf_stateAt tr n
  have hflag : r.unlockFn = false := by
    cases hu : r.unlockFn with
    | false => rfl
    | true =>
      have := (hw.reqsWF.flag_iff i r h).mp hu
      rw [this] at ht
      cases ht
  obtain ⟨r', hr', hle⟩ := stateAt_ReqLe tr n h
  obtain ⟨-, hrel⟩ := hle.2.2.2.2 hflag
  rw [relTimes_eq hr', hrel, ht]

/-- A reservation unreleased in the prefix of length `n` is released (if ever) at
position `n` or later. -/
theorem relTimes_lower_of_prefix_unreleased {tr : List Op} {n i : Nat} {r : Request}
    (h : (stateAt tr n).reqs[i]? = some r) (hr : r.relAt = none) {t : Nat}
    (ht : relTimes tr i = some t) : n ≤ t := by
  cases hfull : (run tr).reqs[i]? with
  | none =>
    unfold relTimes at ht
    rw [hfull] at ht
    cases ht
  | some r' =>
    have ht' : r'.relAt = some t := by
      rw [relTimes_eq hfull] at ht
      exact ht
    by_cases hn : n ≤ tr.length
    · have hdrop : (runFrom (min n tr.length) (stateAt tr n) (tr.drop n)).reqs[i]? = some r' := by
        rw [← run_drop]
        exact hfull
      have := relAt_lower (tr.drop n) (min n tr.length) (stateAt tr n) h hr hdrop ht'
      rwa [min_eq_left hn] at this
    · have hempty : stateAt tr n = run tr := by
        unfold stateAt run
        rw [List.take_of_length_le (le_of_lt (not_le.mp hn))]
      rw [hempty, hfull] at h
      cases Option.some.inj h
      rw [hr] at ht'
      cases ht'

/-- A duplicate-free list of indices of reservations whose release action has not
fired is no longer than the count of unreleased reservations. -/
theorem countP_ge_of_nodup_flags :
    ∀ (l : List Nat) (reqs : List Request), l.Nodup →
      (∀ m ∈ l, ∃ r : Request, reqs[m]? = some r ∧ r.unlockFn = true) →
      l.length ≤ reqs.countP (fun r => r.unlockFn) := by
  intro l
  induction l with
  | nil =>
    intro reqs _ _
    simp
  | cons a l ih =>
    intro reqs hnd hall
    obtain ⟨ra, hra, hfa⟩ := hall a (List.mem_cons_self a l)
    have hnd' : l.Nodup := (List.nodup_cons.mp hnd).2
    have hna : a ∉ l := (List.nodup_cons.mp hnd).1
    have hall' : ∀ m ∈ l, ∃ r : Request,
        (reqs.set a { ra with unlockFn := false })[m]? = some r ∧ r.unlockFn = true := by
      intro m hm
      obtain ⟨rm, hrm, hfm⟩ := hall m (List.mem_cons_of_mem a hm)
      refine ⟨rm, ?_, hfm⟩
      rw [List.getElem?_set_ne]
      · exact hrm
      · intro he
        exact hna (he ▸ hm)
    have hcount := countP_set_of_true (p := fun r => r.unlockFn) reqs a
      { ra with unlockFn := false } hra hfa (by simp)
    have := ih (reqs.set a { ra with unlockFn := false }) hnd' hall'
    simp only [List.length_cons]
    omega

/-- Where a pending request was created: exactly `callPos` calls preceded it, at
which instant exactly `j` reservations existed; a pending exclusive (`lock()`)
chained its grant on the `lockGate` of the creation state, and a pending shared
(`lockShared()`) on the exclusive tail of the creation state. -/
theorem gate_char (tr : List Op) (n : Nat) :
    ∀ (j : Nat) (r : Request), (stateAt tr n).reqs[j]? = some r → r.pending = true →
      (stateAt tr r.callPos).reqs.length = j ∧
        r.gate = (if r.mode = .exclusive then lockGate (stateAt tr r.callPos)
          else (stateAt tr r.callPos).exclusiveTail) := by
  induction n with
  | zero =>
    intro j r h _
    rw [stateAt_zero] at h
    cases h
  | succ n ih =>
    intro j r h hp
    by_cases hn : n < tr.length
    · rw [stateAt_succ tr n hn] at h
      cases hop : tr[n] with
      | lock =>
        rw [hop, step_lock] at h
        rcases get_app_cases h with hold | ⟨hjlen, rfl⟩
        · exact ih j r hold hp
        · exact ⟨hjlen.symm, by simp⟩
      | tryLock =>
        by_cases hcnt : 0 < (stateAt tr n).lockCount
        · rw [hop, step_tryLock_fail hcnt] at h
          exact ih j r h hp
        · rw [hop, step_tryLock_succ hcnt] at h
          rcases get_app_cases h with hold | ⟨hjlen, rfl⟩
          · exact ih j r hold hp
          · cases hp
      | lockShared =>
        rw [hop, step_lockShared] at h
        rcases get_app_cases h with hold | ⟨hjlen, rfl⟩
        · exact ih j r hold hp
        · exact ⟨hjlen.symm, by simp⟩
      | tryLockShared =>
        by_cases hcnt : ((stateAt tr n).sharedGroup.length : Int) < (stateAt tr n).lockCount
        · rw [hop, step_tryLockShared_fail hcnt] at h
          exact ih j r h hp
        · rw [hop, step_tryLockShared_succ hcnt] at h
          rcases get_app_cases h with hold | ⟨hjlen, rfl⟩
          · exact ih j r hold hp
          · cases hp
      | unlock i0 =>
        cases hj0 : (stateAt tr n).reqs[i0]? with
        | none =>
          rw [hop, step_unlock_nothing hj0] at h
          exact ih j r h hp
        | some r0 =>
          cases hf0 : r0.unlockFn with
          | false =>
            rw [hop, step_unlock_released hj0 hf0] at h
            exact ih j r h hp
          | true =>
            rw [hop, step_unlock_fire hj0 hf0] at h
            rcases get_set_cases h with ⟨rfl, _, rfl⟩ | ⟨_, hold⟩
            · have hp0 : r0.pending = true := hp
              obtain ⟨h1, h2⟩ := ih _ r0 hj0 hp0
              exact ⟨h1, h2⟩
            · exact ih j r hold hp
    · rw [stateAt_succ_of_ge tr n (le_of_not_lt hn)] at h
      exact ih j r h hp

/-- Reservation `i` is *covered* at instant `n` under exclusive tail `T`: either its
release can only lie at or before `n`, or `T` is the release signal of a pending
exclusive whose release (under causality) is no earlier than `i`'s release.  A
`lock()` issued now must therefore wait for `i`. -/
def covered (tr : List Op) (n : Nat) (T : Sig) (i : Nat) : Prop :=
  oLe (relTimes tr i) (some n) ∨
    ∃ (e : Nat) (re : Request), T = .rel e ∧ (run tr).reqs[e]? = some re ∧
      re.pending = true ∧ oLe (relTimes tr i) (relTimes tr e)

/-- The ordering invariant of reachable states under a causal trace: every
reservation that is shared or pending and not in the shared cohort is covered by
the exclusive tail, and when the tail is the release signal of a pending exclusive,
every cohort member is released no earlier than that exclusive. -/
structure MInv (tr : List Op) (n : Nat) (s : MutexState) : Prop where
  cov : ∀ (i : Nat) (r : Request), s.reqs[i]? = some r → i ∉ s.sharedGroup →
    (r.mode = .shared ∨ r.pending = true) → covered tr n s.exclusiveTail i
  grpWait : ∀ (e : Nat) (re : Request), s.exclusiveTail = .rel e →
    (run tr).reqs[e]? = some re → re.pending = true →
    ∀ m ∈ s.sharedGroup, oLe (relTimes tr e) (relTimes tr m)

theorem covered_mono {tr : List Op} {n m : Nat} {T : Sig} {i : Nat}
    (h : covered tr n T i) (hnm : n ≤ m) : covered tr m T i := by
  rcases h with h1 | h2
  · exact Or.inl (oLe_trans h1 (oLe_some_some hnm))
  · exact Or.inr h2

/-- The central chaining lemma: in a reachable state of a causal trace, a `lock()`
issued at instant `n` waits (through its gate) for the release of every existing
reservation that is shared or pending. -/
theorem lockWait {tr : List Op} {n : Nat}
    (hinv : MInv tr n (stateAt tr n)) {i : Nat} {ri : Request}
    (hi : (stateAt tr n).reqs[i]? = some ri)
    (hcls : ri.mode = .shared ∨ ri.pending = true) :
    oLe (relTimes tr i)
      (oMax (some n) (sigTime (relTimes tr) (lockGate (stateAt tr n)))) := by
  by_cases hmem : i ∈ (stateAt tr n).sharedGroup
  · have hni : ¬ (stateAt tr n).sharedGroup.isEmpty = true := by
      intro he
      rw [List.isEmpty_iff.mp he] at hmem
      cases hmem
    have hg : lockGate (stateAt tr n) = .allOf (stateAt tr n).sharedGroup := by
      unfold lockGate
      rw [if_neg hni]
    rw [hg]
    exact oLe_trans_oMax_right _ (oLe_listMax_of_mem hmem)
  · have hcov := hinv.cov i ri hi hmem hcls
    rcases hcov with h1 | ⟨e, re, htail, hre, hpend, hie⟩
    · exact oLe_trans_oMax_left _ h1
    · cases hgrp : (stateAt tr n).sharedGroup with
      | nil =>
        have hg : lockGate (stateAt tr n) = (stateAt tr n).exclusiveTail := by
          unfold lockGate
          rw [hgrp]
          simp
        rw [hg, htail]
        exact oLe_trans_oMax_right _ hie
      | cons m rest =>
        have hm : m ∈ (stateAt tr n).sharedGroup := by
          rw [hgrp]
          exact List.mem_cons_self m rest
        have hem := hinv.grpWait e re htail hre hpend m hm
        have hg : lockGate (stateAt tr n) = .allOf (stateAt tr n).sharedGroup := by
          unfold lockGate
          rw [hgrp]
          simp
        rw [hg]
        exact oLe_trans_oMax_right _
          (oLe_trans (oLe_trans hie hem) (oLe_listMax_of_mem hm))

theorem MInv.monoInv {tr : List Op} {n m : Nat} {s : MutexState} (h : MInv tr n s)
    (hnm : n ≤ m) : MInv tr m s :=
  ⟨fun i r hi hmem hcls => covered_mono (h.cov i r hi hmem hcls) hnm, h.grpWait⟩

theorem inv_step (tr : List Op) (hc : causalB tr = true) (n : Nat) (hn : n < tr.length)
    (hinv : MInv tr n (stateAt tr n)) : MInv tr (n + 1) (stateAt tr (n + 1)) := by
  have hw := wf_stateAt tr n
  rw [stateAt_succ tr n hn]
  cases hop : tr[n] with
  | lock =>
    rw [step_lock]
    have hnew : (stateAt tr (n + 1)).reqs[(stateAt tr n).reqs.length]? =
        some ⟨.exclusive, lockGate (stateAt tr n), true, n, true, none⟩ := by
      rw [stateAt_succ tr n hn, hop, step_lock]
      exact get_app_len _ _
    obtain ⟨xr, hxr, hxle⟩ := stateAt_ReqLe tr (n + 1) hnew
    have hxgate : xr.gate = lockGate (stateAt tr n) := hxle.2.1
    have hxpend : xr.pending = true := hxle.2.2.1
    have hxcall : xr.callPos = n := hxle.2.2.2.1
    have hchain : ∀ (i : Nat) (ri : Request), (stateAt tr n).reqs[i]? = some ri →
        (ri.mode = .shared ∨ ri.pending = true) →
        oLe (relTimes tr i) (relTimes tr (stateAt tr n).reqs.length) := by
      intro i ri hi hcls
      refine causal_oLe hc hxr ?_
      have hg : grantTime (relTimes tr) xr =
          oMax (some n) (sigTime (relTimes tr) (lockGate (stateAt tr n))) := by
        simp only [grantTime, hxpend, hxgate, hxcall, if_true]
      rw [hg]
      exact lockWait hinv hi hcls
    constructor
    · intro i r hi hmem hcls
      rcases get_app_cases hi with hold | ⟨hjlen, rfl⟩
      · exact Or.inr ⟨_, xr, rfl, hxr, hxpend, hchain i r hold hcls⟩
      · refine Or.inr ⟨_, xr, rfl, hxr, hxpend, ?_⟩
        rw [hjlen]
        exact oLe_refl _
    · intro e re htail hre hpend m hm
      exact absurd hm (List.not_mem_nil m)
  | tryLock =>
    by_cases hcnt : 0 < (stateAt tr n).lockCount
    · rw [step_tryLock_fail hcnt]
      exact hinv.monoInv (Nat.le_succ n)
    · rw [step_tryLock_succ hcnt]
      have hcp0 : (stateAt tr n).reqs.countP (fun r => r.unlockFn) = 0 := by
        have hce := hw.count_eq
        omega
      have hall : ∀ (i : Nat) (ri : Request), (stateAt tr n).reqs[i]? = some ri →
          ∃ t, relTimes tr i = some t ∧ t < n := by
        intro i ri hi
        have hfl : ri.unlockFn = false := by
          cases hu : ri.unlockFn with
          | false => rfl
          | true =>
            have := countP_pos_of_mem (p := fun r => r.unlockFn) hi hu
            omega
        cases hrel : ri.relAt with
        | none =>
          have := (hw.reqsWF.flag_iff i ri hi).mpr hrel
          rw [this] at hfl
          cases hfl
        | some t =>
          exact ⟨t, relTimes_of_prefix_released hi hrel,
            (hw.reqsWF.rel_bounds i ri t hi hrel).2⟩
      constructor
      · intro i r hi hmem hcls
        rcases get_app_cases hi with hold | ⟨hjlen, rfl⟩
        · obtain ⟨t, hti, htn⟩ := hall i r hold
          refine Or.inl ?_
          rw [hti]
          exact oLe_some_some (by omega)
        · rcases hcls with hmode | hpend
          · exact absurd hmode (by simp)
          · exact absurd hpend (by simp)
      · intro e re htail hre hpend m hm
        exfalso
        have htail' : Sig.rel (stateAt tr n).reqs.length = Sig.rel e := htail
        have he : (stateAt tr n).reqs.length = e := by
          injection htail'
        have hnew : (stateAt tr (n + 1)).reqs[(stateAt tr n).reqs.length]? =
            some ⟨.exclusive, .resolved, false, n, true, none⟩ := by
          rw [stateAt_succ tr n hn, hop, step_tryLock_succ hcnt]
          exact get_app_len _ _
        obtain ⟨xr, hxr, hxle⟩ := stateAt_ReqLe tr (n + 1) hnew
        rw [he] at hxr
        rw [hxr] at hre
        cases Option.some.inj hre
        have : re.pending = false := hxle.2.2.1
        rw [this] at hpend
        cases hpend
  | lockShared =>
    rw [step_lockShared]
    have hnew : (stateAt tr (n + 1)).reqs[(stateAt tr n).reqs.length]? =
        some ⟨.shared, (stateAt tr n).exclusiveTail, true, n, true, none⟩ := by
      rw [stateAt_succ tr n hn, hop, step_lockShared]
      exact get_app_len _ _
    obtain ⟨xr, hxr, hxle⟩ := stateAt_ReqLe tr (n + 1) hnew
    constructor
    · intro i r hi hmem hcls
      have hmem' : i ∉ (stateAt tr n).sharedGroup := fun hx =>
        hmem (List.mem_append.mpr (Or.inl hx))
      rcases get_app_cases hi with hold | ⟨hjlen, rfl⟩
      · exact covered_mono (hinv.cov i r hold hmem' hcls) (Nat.le_succ n)
      · exact absurd (List.mem_append.mpr (Or.inr (by rw [hjlen]; exact List.mem_singleton.mpr rfl))) hmem
    · intro e re htail hre hpend m hm
      have htail' : (stateAt tr n).exclusiveTail = .rel e := htail
      rcases List.mem_append.mp hm with hold | hnewm
      · exact hinv.grpWait e re htail' hre hpend m hold
      · cases List.mem_singleton.mp hnewm
        refine causal_oLe hc hxr ?_
        have hg : grantTime (relTimes tr) xr =
            oMax (some n) (sigTime (relTimes tr) (stateAt tr n).exclusiveTail) := by
          simp only [grantTime, hxle.2.2.1, hxle.2.1, hxle.2.2.2.1, if_true]
        rw [hg, htail']
        exact oLe_trans_oMax_right _ (oLe_refl _)
  | tryLockShared =>
    by_cases hcnt : ((stateAt tr n).sharedGroup.length : Int) < (stateAt tr n).lockCount
    · rw [step_tryLockShared_fail hcnt]
      exact hinv.monoInv (Nat.le_succ n)
    · rw [step_tryLockShared_succ hcnt]
      have hnew : (stateAt tr (n + 1)).reqs[(stateAt tr n).reqs.length]? =
          some ⟨.shared, .resolved, false, n, true, none⟩ := by
        rw [stateAt_succ tr n hn, hop, step_tryLockShared_succ hcnt]
        exact get_app_len _ _
      constructor
      · intro i r hi hmem hcls
        have hmem' : i ∉ (stateAt tr n).sharedGroup := fun hx =>
          hmem (List.mem_append.mpr (Or.inl hx))
        rcases get_app_cases hi with hold | ⟨hjlen, rfl⟩
        · exact covered_mono (hinv.cov i r hold hmem' hcls) (Nat.le_succ n)
        · exact absurd (List.mem_append.mpr (Or.inr (by rw [hjlen]; exact List.mem_singleton.mpr rfl))) hmem
      · intro e re htail hre hpend m hm
        have htail' : (stateAt tr n).exclusiveTail = .rel e := htail
        rcases List.mem_append.mp hm with hold | hnewm
        · exact hinv.grpWait e re htail' hre hpend m hold
        · cases List.mem_singleton.mp hnewm
          rcases hw.tail_ok with hres | ⟨e2, rpe, hrpe, hmode_e, htl2⟩
          · rw [htail'] at hres
            cases hres
          · rw [htail'] at htl2
            have he2 : e = e2 := by injection htl2
            subst he2
            cases hrel_e : rpe.relAt with
            | some t =>
              have hfe : relTimes tr e = some t := relTimes_of_prefix_released hrpe hrel_e
              have htn : t < n := (hw.reqsWF.rel_bounds _ rpe t hrpe hrel_e).2
              rw [hfe]
              intro b hb
              have hbn := relTimes_lower_of_prefix_unreleased hnew rfl hb
              exact ⟨t, rfl, by omega⟩
            | none =>
              exfalso
              have hgrpflag : ∀ m' ∈ (stateAt tr n).sharedGroup, ∃ rm : Request,
                  (stateAt tr n).reqs[m']? = some rm ∧ rm.unlockFn = true := by
                intro m' hm'
                obtain ⟨rm, hrm, hmode_m⟩ := hw.grp_mem m' hm'
                refine ⟨rm, hrm, ?_⟩
                cases hfm : rm.unlockFn with
                | true => rfl
                | false =>
                  exfalso
                  cases hrm_rel : rm.relAt with
                  | none =>
                    have := (hw.reqsWF.flag_iff m' rm hrm).mpr hrm_rel
                    rw [this] at hfm
                    cases hfm
                  | some u =>
                    have hfmu : relTimes tr m' = some u :=
                      relTimes_of_prefix_released hrm hrm_rel
                    have hun : u < n := (hw.reqsWF.rel_bounds m' rm u hrm hrm_rel).2
                    obtain ⟨a, ha, hau⟩ :=
                      hinv.grpWait e re htail' hre hpend m' hm' u hfmu
                    have hna : n ≤ a :=
                      relTimes_lower_of_prefix_unreleased hrpe hrel_e ha
                    omega
              have hefl : rpe.unlockFn = true := (hw.reqsWF.flag_iff _ rpe hrpe).mpr hrel_e
              have henot : e ∉ (stateAt tr n).sharedGroup := by
                intro hmem_e
                obtain ⟨rm, hrm, hmode_m⟩ := hw.grp_mem e hmem_e
                rw [hrpe] at hrm
                cases Option.some.inj hrm
                rw [hmode_e] at hmode_m
                cases hmode_m
              have hnodup : (e :: (stateAt tr n).sharedGroup).Nodup :=
                List.nodup_cons.mpr ⟨henot, hw.grp_nodup⟩
              have hflags : ∀ m' ∈ e :: (stateAt tr n).sharedGroup, ∃ rm : Request,
                  (stateAt tr n).reqs[m']? = some rm ∧ rm.unlockFn = true := by
                intro m' hm'
                rcases List.mem_cons.mp hm' with rfl | hin
                · exact ⟨rpe, hrpe, hefl⟩
                · exact hgrpflag m' hin
              have hcount := countP_ge_of_nodup_flags (e :: (stateAt tr n).sharedGroup)
                (stateAt tr n).reqs hnodup hflags
              have hce := hw.count_eq
              simp only [List.length_cons] at hcount
              omega
  | unlock i0 =>
    cases hj0 : (stateAt tr n).reqs[i0]? with
    | none =>
      rw [step_unlock_nothing hj0]
      exact hinv.monoInv (Nat.le_succ n)
    | some r0 =>
      cases hf0 : r0.unlockFn with
      | false =>
        rw [step_unlock_released hj0 hf0]
        exact hinv.monoInv (Nat.le_succ n)
      | true =>
        rw [step_unlock_fire hj0 hf0]
        constructor
        · intro i r hi hmem hcls
          rcases get_set_cases hi with ⟨rfl, hlt, rfl⟩ | ⟨hne, hold⟩
          · have hcls0 : r0.mode = .shared ∨ r0.pending = true := hcls
            exact covered_mono (hinv.cov _ r0 hj0 hmem hcls0) (Nat.le_succ n)
          · exact covered_mono (hinv.cov i r hold hmem hcls) (Nat.le_succ n)
        · intro e re htail hre hpend m hm
          exact hinv.grpWait e re htail hre hpend m hm

theorem inv_stateAt (tr : List Op) (hc : causalB tr = true) (n : Nat) :
    MInv tr n (stateAt tr n) := by
  induction n with
  | zero =>
    rw [stateAt_zero]
    constructor
    · intro i r hi
      rw [show initState.reqs = [] from rfl] at hi
      cases hi
    · intro e re htail
      cases htail
  | succ n ih =>
    by_cases h : n < tr.length
    · exact inv_step tr hc n h ih
    · rw [stateAt_succ_of_ge tr n (le_of_not_lt h)]
      exact ih.monoInv (Nat.le_succ n)

theorem idx_lt_of_callPos_lt {tr : List Op} {i j : Nat} {ri rj : Request}
    (hi : (run tr).reqs[i]? = some ri) (hj : (run tr).reqs[j]? = some rj)
    (h : ri.callPos < rj.callPos) : i < j := by
  have hw := wf_run tr
  by_contra hle
  push_neg at hle
  rcases Nat.lt_or_ge j i with hlt | hge
  · have := hw.reqsWF.callPos_mono j i rj ri hlt hj hi
    omega
  · have hji : j = i := by omega
    subst hji
    rw [hi] at hj
    cases Option.some.inj hj
    omega

/-- Chaining core shared by the exclusive-ordering claims: the grant of a pending
exclusive request waits for the release of every earlier reservation that is shared
or pending. -/
theorem lock_waits_core {tr : List Op} (hc : causalB tr = true)
    {j : Nat} {rj : Request} (hj : (run tr).reqs[j]? = some rj)
    (hjp : rj.pending = true) (hjm : rj.mode = .exclusive)
    {i : Nat} {ri : Request} (hi : (run tr).reqs[i]? = some ri)
    (hcls : ri.mode = .shared ∨ ri.pending = true) (hij : i < j) :
    oLe ri.relAt (grantTime (relTimes tr) rj) := by
  have hj' : (stateAt tr tr.length).reqs[j]? = some rj := by
    rw [← run_eq_stateAt]
    exact hj
  obtain ⟨hlen, hgate⟩ := gate_char tr tr.length j rj hj' hjp
  rw [if_pos hjm] at hgate
  have hlt : i < (stateAt tr rj.callPos).reqs.length := by omega
  obtain ⟨rip, hipx⟩ : ∃ rip : Request, (stateAt tr rj.callPos).reqs[i]? = some rip := by
    cases hx : (stateAt tr rj.callPos).reqs[i]? with
    | none =>
      rw [List.getElem?_eq_getElem hlt] at hx
      cases hx
    | some rip => exact ⟨rip, rfl⟩
  obtain ⟨ri', hri', hle⟩ := stateAt_ReqLe tr rj.callPos hipx
  have heq : ri' = ri := by
    rw [hri'] at hi
    exact Option.some.inj hi
  rw [heq] at hle
  have hcls' : rip.mode = .shared ∨ rip.pending = true := by
    rcases hcls with hm | hp
    · exact Or.inl (by rw [← hle.1, hm])
    · exact Or.inr (by rw [← hle.2.2.1, hp])
  have hlw := lockWait (inv_stateAt tr hc rj.callPos) hipx hcls'
  rw [← relTimes_eq hi]
  have hg : grantTime (relTimes tr) rj =
      oMax (some rj.callPos) (sigTime (relTimes tr) (lockGate (stateAt tr rj.callPos))) := by
    simp only [grantTime, hjp, if_true, hgate]
  rw [hg]
  exact hlw

/-- Claim C1: for any shared request (issued via `lockShared()` or a successful
`tryLockShared()`) created before an exclusive request E is made via `lock()`, E's
grant resolves only after the shared handle has been released: `lock()` folds the
current shared cohort into a combined barrier and gates E's grant on it (and, for
older shared holders, on the chain of release signals leading to it). -/
theorem lock_grant_after_prior_shared_release (tr : List Op) (hc : causalB tr = true)
    (j : Nat) (rj : Request) (hj : (run tr).reqs[j]? = some rj)
    (hjp : rj.pending = true) (hjm : rj.mode = .exclusive)
    (i : Nat) (ri : Request) (hi : (run tr).reqs[i]? = some ri)
    (him : ri.mode = .shared) (hord : ri.callPos < rj.callPos) :
    oLe ri.relAt (grantTime (relTimes tr) rj) :=
  lock_waits_core hc hj hjp hjm hi (Or.inl him) (idx_lt_of_callPos_lt hi hj hord)

def w1tr : List Op := [.lockShared, .lock, .unlock 0, .unlock 1]

theorem lock_grant_after_prior_shared_release_witness :
    causalB w1tr = true ∧
      oLe (some 2) (grantTime (relTimes w1tr)
        ⟨.exclusive, .allOf [0], true, 1, false, some 3⟩) :=
  ⟨by decide,
    lock_grant_after_prior_shared_release w1tr (by decide)
      1 ⟨.exclusive, .allOf [0], true, 1, false, some 3⟩ (by decide) (by decide) (by decide)
      0 ⟨.shared, .resolved, true, 0, false, some 2⟩ (by decide) (by decide) (by decide)⟩

/-- Claim C2: exclusive requests issued via `lock()` are totally ordered by call
sequence: if E1's `lock()` call precedes E2's, then E2's grant resolves no earlier
than the release of E1's handle, because each `lock()` gates its grant on the
exclusive tail as it exists at call time and installs its own release signal as the
new tail before returning. -/
theorem lock_grants_fifo (tr : List Op) (hc : causalB tr = true)
    (j : Nat) (rj : Request) (hj : (run tr).reqs[j]? = some rj)
    (hjp : rj.pending = true) (hjm : rj.mode = .exclusive)
    (i : Nat) (ri : Request) (hi : (run tr).reqs[i]? = some ri)
    (hip : ri.pending = true) (him : ri.mode = .exclusive)
    (hord : ri.callPos < rj.callPos) :
    oLe ri.relAt (grantTime (relTimes tr) rj) :=
  lock_waits_core hc hj hjp hjm hi (Or.inr hip) (idx_lt_of_callPos_lt hi hj hord)

def w2tr : List Op := [.lock, .lock, .unlock 0, .unlock 1]

theorem lock_grants_fifo_witness :
    causalB w2tr = true ∧
      oLe (some 2) (grantTime (relTimes w2tr)
        ⟨.exclusive, .rel 0, true, 1, false, some 3⟩) :=
  ⟨by decide,
    lock_grants_fifo w2tr (by decide)
      1 ⟨.exclusive, .rel 0, true, 1, false, some 3⟩ (by decide) (by decide) (by decide)
      0 ⟨.exclusive, .resolved, true, 0, false, some 2⟩ (by decide) (by decide)
      (by decide) (by decide)⟩

/-- Claim C3: a shared request issued via `lockShared()` after an exclusive request
E was made via `lock()` and before E's handle is released resolves its grant only
after E's handle is released: readers cannot overtake a queued writer. -/
theorem shared_after_lock_waits (tr : List Op) (hc : causalB tr = true)
    (e : Nat) (re : Request) (he : (run tr).reqs[e]? = some re)
    (hep : re.pending = true) (hem : re.mode = .exclusive)
    (s : Nat) (rs : Request) (hs : (run tr).reqs[s]? = some rs)
    (hsp : rs.pending = true) (hsm : rs.mode = .shared)
    (hord : re.callPos < rs.callPos)
    (hbefore : ∀ t, re.relAt = some t → rs.callPos < t) :
    oLe re.relAt (grantTime (relTimes tr) rs) := by
  have hes : e < s := idx_lt_of_callPos_lt he hs hord
  have hs' : (stateAt tr tr.length).reqs[s]? = some rs := by
    rw [← run_eq_stateAt]
    exact hs
  obtain ⟨hlen, hgate⟩ := gate_char tr tr.length s rs hs' hsp
  rw [if_neg (by rw [hsm]; exact fun h => Mode.noConfusion h)] at hgate
  have hlt : e < (stateAt tr rs.callPos).reqs.length := by omega
  obtain ⟨rep, hepx⟩ : ∃ rep : Request, (stateAt tr rs.callPos).reqs[e]? = some rep := by
    cases hx : (stateAt tr rs.callPos).reqs[e]? with
    | none =>
      rw [List.getElem?_eq_getElem hlt] at hx
      cases hx
    | some rep => exact ⟨rep, rfl⟩
  obtain ⟨re', hre', hle⟩ := stateAt_ReqLe tr rs.callPos hepx
  have heq : re' = re := by
    rw [hre'] at he
    exact Option.some.inj he
  rw [heq] at hle
  have hw := wf_stateAt tr rs.callPos
  have hnot : e ∉ (stateAt tr rs.callPos).sharedGroup := by
    intro hmem
    obtain ⟨rm, hrm, hmode_m⟩ := hw.grp_mem e hmem
    rw [hepx] at hrm
    cases Option.some.inj hrm
    have hme : rep.mode = .exclusive := by rw [← hle.1, hem]
    rw [hme] at hmode_m
    cases hmode_m
  have hcls : rep.mode = .shared ∨ rep.pending = true :=
    Or.inr (by rw [← hle.2.2.1, hep])
  have hcov := (inv_stateAt tr hc rs.callPos).cov e rep hepx hnot hcls
  rw [← relTimes_eq he]
  rcases hcov with h1 | ⟨e', re2, htail, hre2, hpend2, hee⟩
  · exfalso
    obtain ⟨a, ha, haq⟩ := h1 rs.callPos rfl
    have := hbefore a (by rw [← relTimes_eq he]; exact ha)
    omega
  · have hg : grantTime (relTimes tr) rs =
        oMax (some rs.callPos)
          (sigTime (relTimes tr) (stateAt tr rs.callPos).exclusiveTail) := by
      simp only [grantTime, hsp, if_true, hgate]
    rw [hg, htail]
    exact oLe_trans_oMax_right _ hee

def w3tr : List Op := [.lock, .lockShared, .unlock 0, .unlock 1]

theorem shared_after_lock_waits_witness :
    causalB w3tr = true ∧
      oLe (some 2) (grantTime (relTimes w3tr)
        ⟨.shared, .rel 0, true, 1, false, some 3⟩) :=
  ⟨by decide,
    shared_after_lock_waits w3tr (by decide)
      0 ⟨.exclusive, .resolved, true, 0, false, some 2⟩ (by decide) (by decide) (by decide)
      1 ⟨.shared, .rel 0, true, 1, false, some 3⟩ (by decide) (by decide) (by decide)
      (by decide)
      (by
        intro t ht
        cases Option.some.inj ht
        decide)⟩

theorem oMax_mono_left {a b : Nat} (h : a ≤ b) (y : Option Nat) :
    oLe (oMax (some a) y) (oMax (some b) y) := by
  cases y with
  | none => exact oLe_refl _
  | some c =>
    simp only [oMax]
    exact oLe_some_some (by omega)

theorem reqCausal_strict {f : Nat → Option Nat} {r : Request} {u : Nat}
    (hc : reqCausal f r = true) (hu : r.relAt = some u) {g : Nat}
    (hg : grantTime f r = some g) : g < u := by
  unfold reqCausal at hc
  rw [hu, hg] at hc
  exact of_decide_eq_true hc

/-- Reservation `r` is held at instant `t`: its grant has resolved by `t` and its
release action has not fired at or before `t`. -/
def heldAt (f : Nat → Option Nat) (r : Request) (t : Nat) : Prop :=
  (∃ g, grantTime f r = some g ∧ g ≤ t) ∧ (∀ u, r.relAt = some u → t < u)

/-- Claim C8 (amended): shared requests issued via `lockShared()` while the
exclusive tail is unchanged chain their grants on the same exclusive-tail signal
(no grant is gated on another cohort member's release) and are granted in issue
order; and provided no earlier member is released before the later grant resolves,
both are simultaneously held at the instant the later grant resolves. -/
theorem shared_batch_same_gate (tr : List Op) (hc : causalB tr = true)
    (i : Nat) (ri : Request) (hi : (run tr).reqs[i]? = some ri)
    (hip : ri.pending = true) (him : ri.mode = .shared)
    (j : Nat) (rj : Request) (hj : (run tr).reqs[j]? = some rj)
    (hjp : rj.pending = true) (hjm : rj.mode = .shared)
    (hord : ri.callPos < rj.callPos)
    (htail : ∀ k, ri.callPos ≤ k → k ≤ rj.callPos →
      (stateAt tr k).exclusiveTail = (stateAt tr ri.callPos).exclusiveTail) :
    ri.gate = rj.gate ∧
      oLe (grantTime (relTimes tr) ri) (grantTime (relTimes tr) rj) ∧
      ∀ g2, grantTime (relTimes tr) rj = some g2 →
        (∀ u, ri.relAt = some u → g2 < u) →
        heldAt (relTimes tr) ri g2 ∧ heldAt (relTimes tr) rj g2 := by
  have hi' : (stateAt tr tr.length).reqs[i]? = some ri := by
    rw [← run_eq_stateAt]
    exact hi
  have hj' : (stateAt tr tr.length).reqs[j]? = some rj := by
    rw [← run_eq_stateAt]
    exact hj
  obtain ⟨-, hgi⟩ := gate_char tr tr.length i ri hi' hip
  obtain ⟨-, hgj⟩ := gate_char tr tr.length j rj hj' hjp
  rw [if_neg (by rw [him]; exact fun h => Mode.noConfusion h)] at hgi
  rw [if_neg (by rw [hjm]; exact fun h => Mode.noConfusion h)] at hgj
  have hsame : ri.gate = rj.gate := by
    rw [hgi, hgj, htail rj.callPos (le_of_lt hord) le_rfl]
  have hgrle : oLe (grantTime (relTimes tr) ri) (grantTime (relTimes tr) rj) := by
    simp only [grantTime, hip, hjp, if_true, hsame]
    exact oMax_mono_left (le_of_lt hord) _
  refine ⟨hsame, hgrle, ?_⟩
  intro g2 hg2 hnoearly
  refine ⟨⟨?_, fun u hu => ?_⟩, ⟨g2, hg2, le_rfl⟩, fun u hu => ?_⟩
  · obtain ⟨g1, hg1, hg12⟩ := hgrle g2 hg2
    exact ⟨g1, hg1, hg12⟩
  · exact hnoearly u hu
  · exact reqCausal_strict (causal_spec hc hj) hu hg2

def w8tr : List Op := [.lockShared, .lockShared, .unlock 0, .unlock 1]

theorem shared_batch_same_gate_witness :
    causalB w8tr = true ∧
      (⟨.shared, .resolved, true, 0, false, some 2⟩ : Request).gate
        = (⟨.shared, .resolved, true, 1, false, some 3⟩ : Request).gate ∧
      heldAt (relTimes w8tr) ⟨.shared, .resolved, true, 0, false, some 2⟩ 1 ∧
      heldAt (relTimes w8tr) ⟨.shared, .resolved, true, 1, false, some 3⟩ 1 := by
  have htail : ∀ k, (0 : Nat) ≤ k → k ≤ 1 →
      (stateAt w8tr k).exclusiveTail = (stateAt w8tr 0).exclusiveTail := by
    intro k h0 h1
    have : k = 0 ∨ k = 1 := by omega
    rcases this with rfl | rfl <;> rfl
  have hmain := shared_batch_same_gate w8tr (by decide)
    0 ⟨.shared, .resolved, true, 0, false, some 2⟩ (by decide) (by decide) (by decide)
    1 ⟨.shared, .resolved, true, 1, false, some 3⟩ (by decide) (by decide) (by decide)
    (by decide) htail
  have hheld := hmain.2.2 1 (by decide)
    (by
      intro u hu
      cases Option.some.inj hu
      decide)
  exact ⟨by decide, hmain.1, hheld.1, hheld.2⟩

def w8cex : List Op := [.lockShared, .unlock 0, .lockShared]

/-- Claim C8, counterexample to the claim as stated: in the causal trace
`lockShared(); unlock(); lockShared()` the exclusive tail is unchanged throughout
and both requests are shared, yet there is no instant at which both are
simultaneously held (un-released): the first handle is released before the second
request is even issued, so the "held periods overlap" clause fails. -/
theorem shared_batch_overlap_cex :
    causalB w8cex = true ∧
      (∀ k, k ≤ 2 → (stateAt w8cex k).exclusiveTail = (stateAt w8cex 0).exclusiveTail) ∧
      (run w8cex).reqs[0]? = some ⟨.shared, .resolved, true, 0, false, some 1⟩ ∧
      (run w8cex).reqs[1]? = some ⟨.shared, .resolved, true, 2, true, none⟩ ∧
      ¬ ∃ t, heldAt (relTimes w8cex) ⟨.shared, .resolved, true, 0, false, some 1⟩ t ∧
          heldAt (relTimes w8cex) ⟨.shared, .resolved, true, 2, true, none⟩ t := by
  refine ⟨by decide, ?_, by decide, by decide, ?_⟩
  · intro k hk
    have : k = 0 ∨ k = 1 ∨ k = 2 := by omega
    rcases this with rfl | rfl | rfl <;> rfl
  · rintro ⟨t, ⟨-, hu1⟩, ⟨⟨g2, hg2, hg2t⟩, -⟩⟩
    have ht1 : t < 1 := hu1 1 rfl
    have hg2v : grantTime (relTimes w8cex) ⟨.shared, .resolved, true, 2, true, none⟩
        = some 2 := by decide
    rw [hg2v] at hg2
    cases Option.some.inj hg2
    omega

def c4tr : List Op := [.lockShared, .unlock 0, .tryLock, .tryLockShared]

/-- Claim C4, evaluation at the failing input: in the causal trace
`lockShared(); unlock(); tryLock(); tryLockShared()` the `tryLock()` reservation
(request 1, exclusive, handle never released) is still outstanding when
`tryLockShared()` runs, yet `tryLockShared()` returns a granted handle (request 2)
instead of the `null` sentinel: the released shared handle left a stale entry in
the cohort, so `lockCount (= 1) > sharedGroup.length (= 1)` is false even though an
exclusive reservation is outstanding.  This contradicts the code's own
documentation ("New shared locks can start if no exclusive is active or pending
ahead of them"). -/
theorem tryLockShared_admits_despite_outstanding_exclusive :
    causalB c4tr = true ∧
      (stateAt c4tr 3).reqs[1]? = some ⟨.exclusive, .resolved, false, 2, true, none⟩ ∧
      (stateAt c4tr 3).lockCount = 1 ∧
      (stateAt c4tr 3).sharedGroup = [0] ∧
      (tryLockSharedM 3 (stateAt c4tr 3)).1 = some 2 := by
  exact ⟨by decide, by decide, by decide, by decide, by decide⟩

/-- Claim C5: `tryLock()` returns the `null` sentinel exactly when `lockCount > 0`,
which in every reachable state coincides with some reservation (shared or
exclusive, granted or queued) being outstanding; it mutates nothing on failure, and
on success it increments the lock count, installs the new handle's release signal
as the exclusive tail, and returns the handle immediately. -/
theorem tryLock_sentinel_iff (tr : List Op) (n : Nat) :
    ((tryLockM n (run tr)).1 = none ↔ 0 < (run tr).lockCount) ∧
      (0 < (run tr).lockCount ↔
        ∃ (i : Nat) (r : Request), (run tr).reqs[i]? = some r ∧ r.unlockFn = true) ∧
      ((tryLockM n (run tr)).1 = none → (tryLockM n (run tr)).2 = run tr) ∧
      (∀ h, (tryLockM n (run tr)).1 = some h →
        h = (run tr).reqs.length ∧
          (tryLockM n (run tr)).2.lockCount = (run tr).lockCount + 1 ∧
          (tryLockM n (run tr)).2.exclusiveTail = .rel h ∧
          (tryLockM n (run tr)).2.reqs =
            (run tr).reqs ++ [⟨.exclusive, .resolved, false, n, true, none⟩]) := by
  have hcount := (wf_run tr).count_eq
  have houtstanding : 0 < (run tr).lockCount ↔
      ∃ (i : Nat) (r : Request), (run tr).reqs[i]? = some r ∧ r.unlockFn = true := by
    constructor
    · intro hpos
      rw [hcount] at hpos
      have : 0 < (run tr).reqs.countP (fun r => r.unlockFn) := by omega
      obtain ⟨r, hmem, hflag⟩ := List.countP_pos_iff.mp this
      obtain ⟨i, hlt, hgi⟩ := List.mem_iff_getElem.mp hmem
      exact ⟨i, r, by rw [List.getElem?_eq_getElem hlt, hgi], hflag⟩
    · rintro ⟨i, r, hr, hflag⟩
      have := countP_pos_of_mem (p := fun r => r.unlockFn) hr hflag
      omega
  by_cases hc : 0 < (run tr).lockCount
  · rw [tryLockM_fail n hc]
    refine ⟨by simpa using hc, houtstanding, fun _ => rfl, ?_⟩
    intro h hsome
    cases hsome
  · rw [tryLockM_succ n hc]
    refine ⟨by simpa using hc, houtstanding, ?_, ?_⟩
    · intro hnone
      cases hnone
    · intro h hsome
      cases Option.some.inj hsome
      exact ⟨rfl, rfl, rfl, rfl⟩

theorem tryLock_sentinel_iff_witness :
    (tryLockM 1 (run [Op.tryLock])).1 = none ∧
      (tryLockM 1 (run [Op.tryLock])).2 = run [Op.tryLock] := by
  have h := tryLock_sentinel_iff [Op.tryLock] 1
  have hn : (tryLockM 1 (run [Op.tryLock])).1 = none := h.1.mpr (by decide)
  exact ⟨hn, h.2.2.1 hn⟩

/-- Claim C6: the lock count is never negative and always equals the number of
reservations whose release action has not fired; each of `lock()`,
`lockShared()`, successful `tryLock()` and successful `tryLockShared()` increments
it exactly once at reservation creation; a failed `try*` leaves it unchanged; the
first `unlock()` of a handle decrements it exactly once, and a repeated `unlock()`
of the same handle leaves the whole state unchanged. -/
theorem lockCount_invariant (tr : List Op) (i n : Nat) :
    0 ≤ (run tr).lockCount ∧
      (run tr).lockCount = ((run tr).reqs.countP (fun r => r.unlockFn) : Int) ∧
      (lockM n (run tr)).2.lockCount = (run tr).lockCount + 1 ∧
      (lockSharedM n (run tr)).2.lockCount = (run tr).lockCount + 1 ∧
      ((tryLockM n (run tr)).2.lockCount =
        if ((tryLockM n (run tr)).1).isSome then (run tr).lockCount + 1
        else (run tr).lockCount) ∧
      ((tryLockSharedM n (run tr)).2.lockCount =
        if ((tryLockSharedM n (run tr)).1).isSome then (run tr).lockCount + 1
        else (run tr).lockCount) ∧
      ((unlockM n i (run tr)).lockCount =
        if (((run tr).reqs[i]?).map Request.unlockFn) = some true
        then (run tr).lockCount - 1 else (run tr).lockCount) ∧
      run (tr ++ [.unlock i, .unlock i]) = run (tr ++ [.unlock i]) := by
  have hcount := (wf_run tr).count_eq
  refine ⟨by omega, hcount, by rw [lockM_eq], by rw [lockSharedM_eq], ?_, ?_, ?_, ?_⟩
  · by_cases hc : 0 < (run tr).lockCount
    · rw [tryLockM_fail n hc]
      simp
    · rw [tryLockM_succ n hc]
      simp
  · by_cases hc : ((run tr).sharedGroup.length : Int) < (run tr).lockCount
    · rw [tryLockSharedM_fail n hc]
      simp
    · rw [tryLockSharedM_succ n hc]
      simp
  · cases hr : (run tr).reqs[i]? with
    | none =>
      rw [unlockM_nothing n i hr]
      simp
    | some r =>
      cases hf : r.unlockFn with
      | false =>
        rw [unlockM_released n i hr hf]
        simp [hf]
      | true =>
        rw [unlockM_fire n i hr hf]
        simp [hf]
  · have hrw : ∀ (l2 : List Op), run (tr ++ l2) = runFrom tr.length (run tr) l2 := by
      intro l2
      unfold run
      rw [runFrom_append]
      simp only [Nat.zero_add]
    rw [hrw, hrw]
    show runFrom (tr.length + 1)
        (step tr.length (run tr) (.unlock i)) [.unlock i] = step tr.length (run tr) (.unlock i)
    cases hr : (run tr).reqs[i]? with
    | none =>
      rw [step_unlock_nothing hr]
      show unlockM (tr.length + 1) i (run tr) = run tr
      rw [unlockM_nothing _ i hr]
    | some r =>
      cases hf : r.unlockFn with
      | false =>
        rw [step_unlock_released hr hf]
        show unlockM (tr.length + 1) i (run tr) = run tr
        rw [unlockM_released _ i hr hf]
      | true =>
        rw [step_unlock_fire hr hf]
        show unlockM (tr.length + 1) i _ = _
        have hset : ((run tr).reqs.set i
              { r with unlockFn := false, relAt := some tr.length })[i]?
            = some { r with unlockFn := false, relAt := some tr.length } :=
          List.getElem?_set_eq_of_lt _ (get_some_lt hr)
        exact unlockM_released (tr.length + 1) i hset rfl

/-- The `LockHandle` of the main implementation, over an abstract state `σ`: it
owns an optional release action (`unlockFn : (() => void) | null`). -/
structure LockHandleM (σ : Type) where
  unlockFn : Option (σ → σ)

/-- `LockHandle.unlock()`: if the action reference is still owned, invoke it and
discard the reference; otherwise do nothing.  Total, hence it never throws. -/
def LockHandleM.unlock {σ : Type} (h : LockHandleM σ) (st : σ) : LockHandleM σ × σ :=
  match h.unlockFn with
  | some fn => (⟨none⟩, fn st)
  | none => (h, st)

/-- The `[Symbol.dispose]()` hook delegates to `unlock()`. -/
def LockHandleM.dispose {σ : Type} (h : LockHandleM σ) (st : σ) : LockHandleM σ × σ :=
  h.unlock st

/-- A sequence of calls on one handle, in any interleaving: `true` for `unlock()`,
`false` for the `Symbol.dispose` hook. -/
def runCalls {σ : Type} : List Bool → LockHandleM σ → σ → LockHandleM σ × σ
  | [], h, st => (h, st)
  | c :: rest, h, st =>
    let p := if c then h.unlock st else h.dispose st
    runCalls rest p.1 p.2

theorem runCalls_dead {σ : Type} (calls : List Bool) (st : σ) :
    runCalls calls (⟨none⟩ : LockHandleM σ) st = (⟨none⟩, st) := by
  induction calls generalizing st with
  | nil => rfl
  | cons c rest ih =>
    cases c <;> simp [runCalls, LockHandleM.unlock, LockHandleM.dispose, ih]

/-- Claim C7: release is idempotent.  The first call on a fresh handle invokes the
owned release action exactly once and discards the reference; any further sequence
of `unlock()` / `Symbol.dispose` calls, in any interleaving, has no further effect;
the disposal hook is the same function as `unlock()`; and calling `unlock()` on an
already-cleared handle changes nothing. -/
theorem lockHandle_release_idempotent {σ : Type} (fn : σ → σ) (st : σ) (c : Bool)
    (calls : List Bool) :
    LockHandleM.unlock ⟨some fn⟩ st = ((⟨none⟩ : LockHandleM σ), fn st) ∧
      (∀ (h : LockHandleM σ) (s1 : σ), h.dispose s1 = h.unlock s1) ∧
      runCalls (c :: calls) ⟨some fn⟩ st = ((⟨none⟩ : LockHandleM σ), fn st) ∧
      (∀ s1 : σ, LockHandleM.unlock (⟨none⟩ : LockHandleM σ) s1 = (⟨none⟩, s1)) := by
  refine ⟨rfl, fun h s1 => rfl, ?_, fun s1 => rfl⟩
  cases c <;>
    simp [runCalls, LockHandleM.unlock, LockHandleM.dispose, runCalls_dead]

/-- `AsyncSharedMutex.run(handle, task)`: `try { return await task() } finally
{ handle.unlock() }`.  The task is represented by its outcome (`Except`): the
handle is released on both the normal and the failure path, and the outcome is
propagated unchanged. -/
def runnerRun {ε α : Type} (n : Nat) (h : Nat) (res : Except ε α) (s : MutexState) :
    Except ε α × MutexState :=
  (res, unlockM n h s)

/-- `AsyncSharedMutex.tryLock(task)`: attempt `mutex.tryLock()`; on failure return
the `null` sentinel without invoking the task, otherwise run the task under the
handle.  The last component records whether the task was invoked. -/
def runnerTryLock {ε α : Type} (n m : Nat) (res : Except ε α) (s : MutexState) :
    Option (Except ε α) × MutexState × Bool :=
  match tryLockM n s with
  | (none, s1) => (none, s1, false)
  | (some h, s1) =>
    let p := runnerRun m h res s1
    (some p.1, p.2, true)

/-- `AsyncSharedMutex.tryLockShared(task)`, analogously. -/
def runnerTryLockShared {ε α : Type} (n m : Nat) (res : Except ε α) (s : MutexState) :
    Option (Except ε α) × MutexState × Bool :=
  match tryLockSharedM n s with
  | (none, s1) => (none, s1, false)
  | (some h, s1) =>
    let p := runnerRun m h res s1
    (some p.1, p.2, true)

/-- Claim C9: the task runner propagates the task's outcome unchanged and releases
the handle afterwards on both normal completion and failure (the handle's release
action has fired in the post-state either way), and the synchronous-attempt
variants return the `null` sentinel without invoking the task and without mutating
the mutex when the underlying `tryLock()` / `tryLockShared()` attempt fails. -/
theorem runner_propagates_and_releases {ε α : Type} (tr : List Op) (n m : Nat)
    (res : Except ε α) (h : Nat) (r : Request) (hr : (run tr).reqs[h]? = some r) :
    (runnerRun n h res (run tr)).1 = res ∧
      (∀ (a : α) (e : ε),
        (runnerRun n h (Except.ok a : Except ε α) (run tr)).2
          = (runnerRun n h (Except.error e : Except ε α) (run tr)).2) ∧
      ((runnerRun n h res (run tr)).2.reqs[h]?).map Request.unlockFn = some false ∧
      ((tryLockM n (run tr)).1 = none →
        runnerTryLock n m res (run tr) = (none, run tr, false)) ∧
      (∀ hid, (tryLockM n (run tr)).1 = some hid →
        (runnerTryLock n m res (run tr)).1 = some res ∧
          (runnerTryLock n m res (run tr)).2.2 = true) ∧
      ((tryLockSharedM n (run tr)).1 = none →
        runnerTryLockShared n m res (run tr) = (none, run tr, false)) ∧
      (∀ hid, (tryLockSharedM n (run tr)).1 = some hid →
        (runnerTryLockShared n m res (run tr)).1 = some res ∧
          (runnerTryLockShared n m res (run tr)).2.2 = true) := by
  have hrel : ∀ k, ((unlockM k h (run tr)).reqs[h]?).map Request.unlockFn
      = some false := by
    intro k
    cases hf : r.unlockFn with
    | false =>
      rw [unlockM_released k h hr hf]
      rw [hr]
      simp [hf]
    | true =>
      rw [unlockM_fire k h hr hf]
      show (((run tr).reqs.set h _)[h]?).map Request.unlockFn = some false
      rw [List.getElem?_set_eq_of_lt _ (get_some_lt hr)]
      rfl
  refine ⟨rfl, fun a e => rfl, hrel n, ?_, ?_, ?_, ?_⟩
  · intro hnone
    unfold runnerTryLock
    by_cases hc : 0 < (run tr).lockCount
    · rw [tryLockM_fail n hc]
    · rw [tryLockM_succ n hc] at hnone ⊢
      cases hnone
  · intro hid hsome
    unfold runnerTryLock
    by_cases hc : 0 < (run tr).lockCount
    · rw [tryLockM_fail n hc] at hsome
      cases hsome
    · rw [tryLockM_succ n hc]
      exact ⟨rfl, rfl⟩
  · intro hnone
    unfold runnerTryLockShared
    by_cases hc : ((run tr).sharedGroup.length : Int) < (run tr).lockCount
    · rw [tryLockSharedM_fail n hc]
    · rw [tryLockSharedM_succ n hc] at hnone ⊢
      cases hnone
  · intro hid hsome
    unfold runnerTryLockShared
    by_cases hc : ((run tr).sharedGroup.length : Int) < (run tr).lockCount
    · rw [tryLockSharedM_fail n hc] at hsome
      cases hsome
    · rw [tryLockSharedM_succ n hc]
      exact ⟨rfl, rfl⟩

theorem runner_propagates_and_releases_witness :
    (runnerRun 1 0 (Except.ok 3 : Except Nat Nat) (run [Op.tryLock])).1 = .ok 3 ∧
      ((runnerRun 1 0 (Except.ok 3 : Except Nat Nat)
        (run [Op.tryLock])).2.reqs[0]?).map Request.unlockFn = some false := by
  have h := runner_propagates_and_releases (ε := Nat) [Op.tryLock] 1 2 (.ok 3) 0
    ⟨.exclusive, .resolved, false, 0, true, none⟩ (by decide)
  exact ⟨h.1, h.2.2.1⟩

/-- A reservation of the draft `SharedMutex` variant kept in the tree: its unlock
closure guards re-entry with an internal `hasUnlocked` flag and its `LockHandle`
keeps the callback reference. -/
structure DraftRequest where
  mode : Mode
  gate : Sig
  pending : Bool
  callPos : Nat
  hasUnlocked : Bool
  relAt : Option Nat
deriving DecidableEq, Repr

/-- The state of the draft `SharedMutex` variant. -/
structure DraftState where
  exclusiveTail : Sig
  sharedGroup : List Nat
  lockCount : Int
  reqs : List DraftRequest
deriving DecidableEq, Repr

def draftInit : DraftState := ⟨.resolved, [], 0, []⟩

/-- The draft `createAcquiredLock`: `let hasUnlocked = false; this.lockCount++`. -/
def draftCreateAcquiredLock (n : Nat) (mode : Mode) (gate : Sig) (pending : Bool)
    (s : DraftState) : Nat × DraftState :=
  (s.reqs.length,
    { s with lockCount := s.lockCount + 1
             reqs := s.reqs ++ [⟨mode, gate, pending, n, false, none⟩] })

def draftLockM (n : Nat) (s : DraftState) : Nat × DraftState :=
  let s1 : DraftState :=
    if s.sharedGroup.isEmpty then s
    else { s with exclusiveTail := .allOf s.sharedGroup, sharedGroup := [] }
  let (id, s2) := draftCreateAcquiredLock n .exclusive s1.exclusiveTail true s1
  (id, { s2 with exclusiveTail := .rel id })

def draftTryLockM (n : Nat) (s : DraftState) : Option Nat × DraftState :=
  if 0 < s.lockCount then (none, s)
  else
    let (id, s2) := draftCreateAcquiredLock n .exclusive .resolved false s
    (some id, { s2 with exclusiveTail := .rel id })

def draftLockSharedM (n : Nat) (s : DraftState) : Nat × DraftState :=
  let (id, s2) := draftCreateAcquiredLock n .shared s.exclusiveTail true s
  (id, { s2 with sharedGroup := s2.sharedGroup ++ [id] })

def draftTryLockSharedM (n : Nat) (s : DraftState) : Option Nat × DraftState :=
  if (s.sharedGroup.length : Int) < s.lockCount then (none, s)
  else
    let (id, s2) := draftCreateAcquiredLock n .shared .resolved false s
    (some id, { s2 with sharedGroup := s2.sharedGroup ++ [id] })

/-- The draft unlock closure: `if (hasUnlocked) return; hasUnlocked = true;
this.lockCount--; resolveUnlock()`.  The handle keeps the callback, so idempotence
rests entirely on the flag. -/
def draftUnlockM (n : Nat) (i : Nat) (s : DraftState) : DraftState :=
  match s.reqs[i]? with
  | none => s
  | some r =>
    if r.hasUnlocked then s
    else
      { s with lockCount := s.lockCount - 1
               reqs := s.reqs.set i { r with hasUnlocked := true, relAt := some n } }

def draftStep (n : Nat) (s : DraftState) : Op → DraftState
  | .lock => (draftLockM n s).2
  | .tryLock => (draftTryLockM n s).2
  | .lockShared => (draftLockSharedM n s).2
  | .tryLockShared => (draftTryLockSharedM n s).2
  | .unlock i => draftUnlockM n i s

def draftRunFrom (n : Nat) (s : DraftState) : List Op → DraftState
  | [] => s
  | op :: ops => draftRunFrom (n + 1) (draftStep n s op) ops

def draftRun (tr : List Op) : DraftState := draftRunFrom 0 draftInit tr

/-- Observation map: a draft reservation corresponds to a main-implementation
reservation whose nulled-callback flag is the negation of `hasUnlocked`. -/
def draftReqToMain (r : DraftRequest) : Request :=
  ⟨r.mode, r.gate, r.pending, r.callPos, !r.hasUnlocked, r.relAt⟩

def draftToMain (s : DraftState) : MutexState :=
  ⟨s.exclusiveTail, s.sharedGroup, s.lockCount, s.reqs.map draftReqToMain⟩

theorem draftToMain_step (n : Nat) (s : DraftState) (op : Op) :
    draftToMain (draftStep n s op) = step n (draftToMain s) op := by
  cases op with
  | lock =>
    show draftToMain (draftLockM n s).2 = (lockM n (draftToMain s)).2
    rw [lockM_eq]
    unfold draftLockM draftCreateAcquiredLock draftToMain draftReqToMain lockGate
    by_cases hg : s.sharedGroup.isEmpty
    · have h0 : s.sharedGroup = [] := List.isEmpty_iff.mp hg
      simp [hg, h0]
    · simp [hg]
  | tryLock =>
    show draftToMain (draftTryLockM n s).2 = (tryLockM n (draftToMain s)).2
    by_cases hc : 0 < s.lockCount
    · rw [tryLockM_fail n hc]
      unfold draftTryLockM
      simp [hc]
    · rw [tryLockM_succ n hc]
      unfold draftTryLockM draftCreateAcquiredLock draftToMain draftReqToMain
      simp [hc]
  | lockShared =>
    show draftToMain (draftLockSharedM n s).2 = (lockSharedM n (draftToMain s)).2
    rw [lockSharedM_eq]
    unfold draftLockSharedM draftCreateAcquiredLock draftToMain draftReqToMain
    simp
  | tryLockShared =>
    show draftToMain (draftTryLockSharedM n s).2 = (tryLockSharedM n (draftToMain s)).2
    by_cases hc : (s.sharedGroup.length : Int) < s.lockCount
    · rw [tryLockSharedM_fail n (by simpa using hc)]
      unfold draftTryLockSharedM
      simp [hc]
    · rw [tryLockSharedM_succ n (by simpa using hc)]
      unfold draftTryLockSharedM draftCreateAcquiredLock draftToMain draftReqToMain
      simp [hc]
  | unlock i =>
    show draftToMain (draftUnlockM n i s) = unlockM n i (draftToMain s)
    cases hr : s.reqs[i]? with
    | none =>
      have hrm : (draftToMain s).reqs[i]? = none := by
        show ((s.reqs.map draftReqToMain))[i]? = none
        rw [List.getElem?_map, hr]
        rfl
      rw [unlockM_nothing n i hrm]
      unfold draftUnlockM
      rw [hr]
    | some r =>
      have hrm : (draftToMain s).reqs[i]? = some (draftReqToMain r) := by
        show ((s.reqs.map draftReqToMain))[i]? = some (draftReqToMain r)
        rw [List.getElem?_map, hr]
        rfl
      cases hu : r.hasUnlocked with
      | true =>
        have hflag : (draftReqToMain r).unlockFn = false := by
          simp [draftReqToMain, hu]
        rw [unlockM_released n i hrm hflag]
        unfold draftUnlockM
        rw [hr]
        simp [hu]
      | false =>
        have hflag : (draftReqToMain r).unlockFn = true := by
          simp [draftReqToMain, hu]
        rw [unlockM_fire n i hrm hflag]
        unfold draftUnlockM
        rw [hr]
        simp only [hu, Bool.false_eq_true, if_false]
        unfold draftToMain
        simp only [List.map_set]
        rfl

theorem draftRunFrom_toMain (ops : List Op) :
    ∀ (k : Nat) (s : DraftState),
      draftToMain (draftRunFrom k s ops) = runFrom k (draftToMain s) ops := by
  induction ops with
  | nil =>
    intro k s
    rfl
  | cons op rest ih =>
    intro k s
    show draftToMain (draftRunFrom (k + 1) (draftStep k s op) rest) = _
    rw [ih (k + 1) (draftStep k s op), draftToMain_step]
    rfl

/-- Claim C10: the main `SharedMutex` (handle nulls its stored callback) and the
draft variant (closure guards with a `hasUnlocked` flag, handle keeps the
callback) are observationally equivalent: running any call trace produces
corresponding states (same exclusive tail, shared cohort, lock count, and the same
reservation records with corresponding release flags), and the four acquisition
methods return identical results (ids and sentinels) in those states. -/
theorem draft_equiv (tr : List Op) (n : Nat) :
    draftToMain (draftRun tr) = run tr ∧
      (draftRun tr).lockCount = (run tr).lockCount ∧
      (draftRun tr).exclusiveTail = (run tr).exclusiveTail ∧
      (draftRun tr).sharedGroup = (run tr).sharedGroup ∧
      (draftLockM n (draftRun tr)).1 = (lockM n (run tr)).1 ∧
      (draftTryLockM n (draftRun tr)).1 = (tryLockM n (run tr)).1 ∧
      (draftLockSharedM n (draftRun tr)).1 = (lockSharedM n (run tr)).1 ∧
      (draftTryLockSharedM n (draftRun tr)).1 = (tryLockSharedM n (run tr)).1 := by
  have hmain : draftToMain (draftRun tr) = run tr := by
    unfold draftRun run
    rw [draftRunFrom_toMain]
    rfl
  have hcnt : (draftRun tr).lockCount = (run tr).lockCount := by
    rw [← hmain]
    rfl
  have htail : (draftRun tr).exclusiveTail = (run tr).exclusiveTail := by
    rw [← hmain]
    rfl
  have hgrp : (draftRun tr).sharedGroup = (run tr).sharedGroup := by
    rw [← hmain]
    rfl
  have hlen : (draftRun tr).reqs.length = (run tr).reqs.length := by
    rw [← hmain]
    show _ = ((draftRun tr).reqs.map draftReqToMain).length
    rw [List.length_map]
  refine ⟨hmain, hcnt, htail, hgrp, ?_, ?_, ?_, ?_⟩
  · have h1 : (draftLockM n (draftRun tr)).1 = (draftRun tr).reqs.length := by
      unfold draftLockM draftCreateAcquiredLock
      by_cases hg : (draftRun tr).sharedGroup.isEmpty <;> simp [hg]
    rw [h1, lockM_eq, hlen]
  · unfold draftTryLockM tryLockM
    rw [hcnt]
    by_cases hc : 0 < (run tr).lockCount
    · simp [hc]
    · simp [hc, hlen, draftCreateAcquiredLock, createAcquiredLock]
  · have h1 : (draftLockSharedM n (draftRun tr)).1 = (draftRun tr).reqs.length := by
      unfold draftLockSharedM draftCreateAcquiredLock
      simp
    rw [h1, lockSharedM_eq, hlen]
  · unfold draftTryLockSharedM tryLockSharedM
    rw [hcnt, hgrp]
    by_cases hc : ((run tr).sharedGroup.length : Int) < (run tr).lockCount
    · simp [hc]
    · simp [hc, hlen, draftCreateAcquiredLock, createAcquiredLock]

end SMutex





